import Mathlib

/-!
A shallow embedding of the event machinery of w32-pth.c (the w32pth
library): the circular doubly linked event ring with its isolation
operation, event construction, the wait multiplexer `do_pth_wait`,
the mutex acquire wrapper, thread cancel/abort, and the event status
query.  Host (Windows API) behaviour is modelled by oracles; host
calls whose effects matter to the specification are recorded in an
action trace.
-/

namespace W32Pth

/-! ## Platform constants (windows.h / winsock2.h) -/

def MAXIMUM_WAIT_OBJECTS : Nat := 64

def WAIT_OBJECT_0 : Nat := 0

def WAIT_TIMEOUT : Nat := 258

def WAIT_FAILED : Nat := 0xFFFFFFFF

def FD_SETSIZE : Nat := 64

def FD_READ : Nat := 0x01

def FD_WRITE : Nat := 0x02

def FD_OOB : Nat := 0x04

def FD_ACCEPT : Nat := 0x08

def FD_CLOSE : Nat := 0x20

/-! ## Event kinds and status -/

/-- The `u_type` tag of `struct pth_event_s`.  `untyped` is the zero value
left by `calloc` when the spec selects no kind. -/
inductive EvKind
  | untyped
  | sigs
  | fd
  | time
  | select
  | handle
  | mutex
  deriving DecidableEq, Repr

/-- `pth_status_t` as used by the code: an event is pending or occurred. -/
inductive Status
  | pending
  | occurred
  deriving DecidableEq, Repr

/-- Modelled from the spec: the numeric encodings of `PTH_STATUS_PENDING`
and `PTH_STATUS_OCCURRED` live in pth.h, which is not part of the source
tree; the spec fixes PENDING to encode as 0. -/
def statusCode : Status → Int
  | .pending => 0
  | .occurred => 1

/-! ## Events

`struct pth_event_s` minus the ring links (`next`/`prev`, kept separately
in the heap model below).  The union `u` is flattened; pointer-valued
output slots (`*u.sel.rc`, `*u.sig.signo`) are stored by value, and the
three `fd_set` pointers of a SELECT event become optional fd lists
(`none` is a NULL pointer; a winsock `fd_set` is its `fd_array` prefix of
length `fd_count`). -/

structure WEvent where
  u_type : EvKind
  untilReadable : Bool
  fd : Int
  tv_sec : Nat
  tv_usec : Nat
  rfds : Option (List Int)
  wfds : Option (List Int)
  efds : Option (List Int)
  sel_rc : Int
  signo : Int
  hd : Nat
  status : Status
  deriving DecidableEq, Repr

/-! ## The event ring as a heap of linked nodes

Ring surgery in the C code is pointer surgery; we model memory as a
function from addresses (`Nat`, with 0 playing NULL) to nodes. -/

/-- A heap cell: the two ring links of `struct pth_event_s` plus the
event payload. -/
structure EvNode where
  next : Nat
  prev : Nat
  ev : WEvent
  deriving Repr

def Heap : Type := Nat → EvNode

/-- `x->next = v` -/
def setNext (h : Heap) (a v : Nat) : Heap :=
  fun x => if x = a then { h x with next := v } else h x

/-- `x->prev = v` -/
def setPrev (h : Heap) (a v : Nat) : Heap :=
  fun x => if x = a then { h x with prev := v } else h x

/-- Overwrite a whole node. -/
def setNode (h : Heap) (a : Nat) (n : EvNode) : Heap :=
  fun x => if x = a then n else h x

/-- Adjacency in the ring: `a`'s next is `b` and `b`'s prev is `a`. -/
def linked (h : Heap) (a b : Nat) : Prop :=
  (h a).next = b ∧ (h b).prev = a

instance instDecLinked (h : Heap) (a b : Nat) : Decidable (linked h a b) :=
  inferInstanceAs (Decidable ((h a).next = b ∧ (h b).prev = a))

/-- The addresses `l` (in traversal order) form a valid circular doubly
linked ring in heap `h`: distinct nodes, consecutively linked, and the
last node links back to the first. -/
def isRing (h : Heap) (l : List Nat) : Prop :=
  l ≠ [] ∧ l.Nodup ∧ List.Chain' (linked h) l ∧ linked h (l.getLastD 0) (l.headD 0)

instance instDecIsRing (h : Heap) (l : List Nat) : Decidable (isRing h l) :=
  inferInstanceAs
    (Decidable (l ≠ [] ∧ l.Nodup ∧ List.Chain' (linked h) l ∧ linked h (l.getLastD 0) (l.headD 0)))

/-- `pth_event_isolate`: unlink `ev` from its ring.  Returns the entry
point of the remainder ring (NULL when `ev` was the sole member) and the
heap after the pointer surgery, performed in the source's order. -/
def pth_event_isolate (h : Heap) (ev : Nat) : Option Nat × Heap :=
  if ev = 0 then (none, h)
  else if (h ev).next = ev ∧ (h ev).prev = ev then (none, h)
  else
    let ring := (h ev).next
    let h1 := setNext h ((h ev).prev) ((h ev).next)
    let h2 := setPrev h1 ((h1 ev).next) ((h1 ev).prev)
    let h3 := setPrev h2 ev ev
    let h4 := setNext h3 ev ev
    (some ring, h4)

/-! ## Host oracle and action trace for the wait multiplexer

`do_pth_wait` consults the Windows API; those calls are modelled by an
oracle (`Host`).  The host calls whose occurrence the specification talks
about (timer arming, the blocking multi-object wait, event resets,
per-descriptor restoration, per-call cleanup) are recorded as actions. -/

structure Host where
  /-- `fd_is_socket (fd)` -/
  fd_is_socket : Int → Bool
  /-- Handle returned by the k-th `WSACreateEvent` of the call. -/
  sockEvent : Nat → Nat
  /-- `WSAEventSelect (fd, sockevent, flags)` returned nonzero. -/
  wsaEventSelectFails : Int → Bool
  /-- `_pth_get_reader_ev (fd)`; `none` is INVALID_HANDLE_VALUE. -/
  reader_ev : Int → Option Nat
  /-- `_pth_get_writer_ev (fd)`; `none` is INVALID_HANDLE_VALUE. -/
  writer_ev : Int → Option Nat
  /-- `set_timer (hd, ms)` returned nonzero (failure). -/
  setTimerFails : Nat → Nat → Bool
  /-- Result of `WaitForMultipleObjects (pos, waitbuf, FALSE, INFINITE)`. -/
  wfmo : List Nat → Nat
  /-- `WaitForSingleObject (h, 0) == WAIT_OBJECT_0`. -/
  signaled : Nat → Bool
  /-- `WSAEnumNetworkEvents (fd, NULL, &ne)` returned nonzero. -/
  enumFails : Int → Bool
  /-- `ne.lNetworkEvents` reported for `fd`. -/
  netEvents : Int → Nat
  /-- The global `pth_signo` cell. -/
  pth_signo : Int

inductive HostAction
  | setTimer (hd : Nat) (ms : Nat)
  | wsaEventSelectSet (fd : Int) (hd : Nat) (mask : Nat)
  | wfmoCall (res : Nat)
  | resetEvent (hd : Nat)
  | wsaEventSelectClear (fd : Int)
  | ioctlBlocking (fd : Int)
  | wsaCloseEvent (hd : Nat)
  deriving DecidableEq, Repr

/-! ## `build_fdarray` and the select machinery -/

/-- An entry of the `fdarray` built by `build_fdarray`. -/
structure FdItem where
  fd : Int
  netevents : Nat
  deriving DecidableEq, Repr

/-- One iteration of the inner loop of `build_fdarray`: OR the mask into
an existing entry for `fd`, else append a fresh entry while capacity
remains.  (Entries are unique by construction, so mapping over all
matches equals updating the first.) -/
def fdarrayAdd (ar : List FdItem) (fd : Int) (mask : Nat) : List FdItem :=
  if ar.any (fun it => it.fd = fd) then
    ar.map (fun it => if it.fd = fd then { it with netevents := it.netevents ||| mask } else it)
  else if ar.length < FD_SETSIZE then ar ++ [⟨fd, mask⟩] else ar

/-- `build_fdarray (fdarray, nfdarray, fds, netevents)`; a NULL `fds`
contributes nothing. -/
def build_fdarray (ar : List FdItem) (fds : Option (List Int)) (mask : Nat) : List FdItem :=
  match fds with
  | none => ar
  | some l => l.foldl (fun a fd => fdarrayAdd a fd mask) ar

/-- The winsock `FD_SET` macro: append unless already present or the set
is full. -/
def fdSetAdd (s : List Int) (fd : Int) : List Int :=
  if fd ∈ s then s else if s.length < FD_SETSIZE then s ++ [fd] else s

/-- State threaded through the per-descriptor loop of the SELECT
resolution in `do_pth_wait`. -/
structure SelSt where
  rfds : Option (List Int)
  wfds : Option (List Int)
  efds : Option (List Int)
  ntotal : Nat
  acts : List HostAction
  deriving Repr

/-- The read branch of the SELECT resolution loop body:
`if (r->u.sel.rfds && (ne.lNetworkEvents & (FD_READ|FD_ACCEPT))) { FD_SET; ntotal++; }`. -/
def selUpdR (host : Host) (it : FdItem) (st : SelSt) : SelSt :=
  if st.rfds.isSome ∧ host.netEvents it.fd &&& (FD_READ ||| FD_ACCEPT) ≠ 0 then
    { st with rfds := st.rfds.map (fun s => fdSetAdd s it.fd), ntotal := st.ntotal + 1 }
  else st

/-- The write branch of the SELECT resolution loop body. -/
def selUpdW (host : Host) (it : FdItem) (st : SelSt) : SelSt :=
  if st.wfds.isSome ∧ host.netEvents it.fd &&& FD_WRITE ≠ 0 then
    { st with wfds := st.wfds.map (fun s => fdSetAdd s it.fd), ntotal := st.ntotal + 1 }
  else st

/-- The exception branch of the SELECT resolution loop body. -/
def selUpdE (host : Host) (it : FdItem) (st : SelSt) : SelSt :=
  if st.efds.isSome ∧ host.netEvents it.fd &&& (FD_OOB ||| FD_CLOSE) ≠ 0 then
    { st with efds := st.efds.map (fun s => fdSetAdd s it.fd), ntotal := st.ntotal + 1 }
  else st

/-- One iteration of the SELECT resolution loop: skip the descriptor when
`WSAEnumNetworkEvents` fails, else re-add it to each non-NULL set whose
direction is ready (counting memberships), then clear its event
registration and put it back into blocking mode. -/
def selStep (host : Host) (st : SelSt) (it : FdItem) : SelSt :=
  if host.enumFails it.fd then st
  else
    let st3 := selUpdE host it (selUpdW host it (selUpdR host it st))
    { st3 with acts := st3.acts ++ [.wsaEventSelectClear it.fd, .ioctlBlocking it.fd] }

/-- The probed descriptor array of a SELECT event: the deduplicated union
of its three fd-sets, built exactly as the resolution phase builds it
(three `build_fdarray` passes with mask 0). -/
def probedArray (e : WEvent) : List FdItem :=
  build_fdarray (build_fdarray (build_fdarray [] e.rfds 0) e.wfds 0) e.efds 0

/-- The PTH_EVENT_SELECT arm of the resolution phase: zero the non-NULL
fd-sets (`FD_ZERO`), walk the probed descriptors, and store the total
ready count into the event's output slot. -/
def selResolve (host : Host) (e : WEvent) : WEvent × List HostAction :=
  let st0 : SelSt :=
    { rfds := e.rfds.map (fun _ => [])
      wfds := e.wfds.map (fun _ => [])
      efds := e.efds.map (fun _ => [])
      ntotal := 0
      acts := [] }
  let st := (probedArray e).foldl (selStep host) st0
  ({ e with rfds := st.rfds, wfds := st.wfds, efds := st.efds, sel_rc := (st.ntotal : Int) },
   st.acts)

/-- Resolution of one contributed slot `(e, hd)`: if the slot's object is
signaled, mark the event occurred, do the kind-specific payload work,
and reset the native object unless the kind is TIME or FD; in any case
perform the per-call cleanup for socket FD events.  Returns the updated
event, the count increment, and the host actions. -/
def resolveOne (host : Host) (e : WEvent) (hd : Nat) : WEvent × Nat × List HostAction :=
  let cleanup : List HostAction :=
    if e.u_type = .fd ∧ host.fd_is_socket e.fd then
      [.wsaEventSelectClear e.fd, .wsaCloseEvent hd]
    else []
  if host.signaled hd then
    let e1 := { e with status := Status.occurred }
    let (e2, acts1) :=
      match e.u_type with
      | .sigs => ({ e1 with signo := host.pth_signo }, ([] : List HostAction))
      | .select => selResolve host e1
      | _ => (e1, [])
    let acts2 :=
      if e.u_type ≠ .time ∧ e.u_type ≠ .fd then acts1 ++ [.resetEvent hd] else acts1
    (e2, 1, acts2 ++ cleanup)
  else (e, 0, cleanup)

/-- The resolution loop over the contributed slots (pairs of ring index
and native handle), in contribution order. -/
def resolveAll (host : Host) :
    List (Nat × Nat) → List WEvent → Nat → List HostAction →
    List WEvent × Nat × List HostAction
  | [], evs, count, acts => (evs, count, acts)
  | (i, hd) :: rest, evs, count, acts =>
    match evs[i]? with
    | none => resolveAll host rest evs count acts
    | some e =>
      let (e2, c, a) := resolveOne host e hd
      resolveAll host rest (evs.set i e2) (count + c) (acts ++ a)

/-- Milliseconds passed to `set_timer` for a TIME event:
`tv_sec * 1000 + (tv_usec + 500) / 1000`. -/
def msOf (e : WEvent) : Nat :=
  e.tv_sec * 1000 + (e.tv_usec + 500) / 1000

/-- The contribution walk of `do_pth_wait`: visit the ring nodes in
order (`idx` is the ring position, `fresh` counts `WSACreateEvent`
calls), contributing zero or one native objects per node.  The first
component is `none` when a `set_timer` call failed (the C code returns
−1 right there); actions accumulated so far are kept. -/
def contribute (host : Host) (sigEv : Nat) :
    List WEvent → Nat → Nat →
    Option (List (Nat × Nat)) × List HostAction × Nat
  | [], _, fresh => (some [], [], fresh)
  | e :: rest, idx, fresh =>
    match e.u_type with
    | .sigs =>
      let (res, acts, f) := contribute host sigEv rest (idx + 1) fresh
      (res.map (fun s => (idx, sigEv) :: s), acts, f)
    | .fd =>
      if host.fd_is_socket e.fd then
        let sockevent := host.sockEvent fresh
        let mask := if e.untilReadable then FD_READ ||| FD_ACCEPT else FD_WRITE
        if host.wsaEventSelectFails e.fd then
          let (res, acts, f) := contribute host sigEv rest (idx + 1) (fresh + 1)
          (res, .wsaEventSelectSet e.fd sockevent mask :: acts, f)
        else
          let (res, acts, f) := contribute host sigEv rest (idx + 1) (fresh + 1)
          (res.map (fun s => (idx, sockevent) :: s),
           .wsaEventSelectSet e.fd sockevent mask :: acts, f)
      else
        if e.untilReadable then
          match host.reader_ev e.fd with
          | none => contribute host sigEv rest (idx + 1) fresh
          | some hd =>
            let (res, acts, f) := contribute host sigEv rest (idx + 1) fresh
            (res.map (fun s => (idx, hd) :: s), acts, f)
        else
          match host.writer_ev e.fd with
          | none => contribute host sigEv rest (idx + 1) fresh
          | some hd =>
            let (res, acts, f) := contribute host sigEv rest (idx + 1) fresh
            (res.map (fun s => (idx, hd) :: s), acts, f)
    | .time =>
      let ms := msOf e
      if host.setTimerFails e.hd ms then (none, [.setTimer e.hd ms], fresh)
      else
        let (res, acts, f) := contribute host sigEv rest (idx + 1) fresh
        (res.map (fun s => (idx, e.hd) :: s), .setTimer e.hd ms :: acts, f)
    | .select =>
      let (res, acts, f) := contribute host sigEv rest (idx + 1) fresh
      (res.map (fun s => (idx, e.hd) :: s), acts, f)
    | .handle =>
      let (res, acts, f) := contribute host sigEv rest (idx + 1) fresh
      (res.map (fun s => (idx, e.hd) :: s), acts, f)
    | .mutex => contribute host sigEv rest (idx + 1) fresh
    | .untyped => contribute host sigEv rest (idx + 1) fresh

/-- The body of `do_pth_wait` after the capacity check: reset every
status to PENDING, contribute the native objects, block in
`WaitForMultipleObjects`, resolve the slots, and compute the return
value (`count` if nonzero, else 0 on WAIT_TIMEOUT, else −1). -/
def do_pth_wait_main (host : Host) (sigEv : Nat) (evs : List WEvent) :
    Int × List WEvent × List HostAction :=
  let evs1 := evs.map (fun e => { e with status := Status.pending })
  match contribute host sigEv evs1 0 0 with
  | (none, acts, _) => (-1, evs1, acts)
  | (some slots, acts, _) =>
    let n := host.wfmo (slots.map Prod.snd)
    let (evs2, count, acts2) := resolveAll host slots evs1 0 (acts ++ [.wfmoCall n])
    (if count ≠ 0 then (count : Int) else if n = WAIT_TIMEOUT then 0 else -1, evs2, acts2)

/-- `do_pth_wait` on the list of ring members in traversal order: an
empty list is the NULL ring (return 0); a ring larger than
`MAXIMUM_WAIT_OBJECTS/2` is rejected with −1 before anything else
happens. -/
def do_pth_wait (host : Host) (sigEv : Nat) (evs : List WEvent) :
    Int × List WEvent × List HostAction :=
  if evs = [] then (0, evs, [])
  else if evs.length > MAXIMUM_WAIT_OBJECTS / 2 then (-1, evs, [])
  else do_pth_wait_main host sigEv evs

/-! ## Event construction (`do_pth_event_body`)

The `spec` bitmask argument of `pth_event` uses PTH_* bit constants from
pth.h, which is not part of the source tree; the mask is modelled as a
record of the individual bits the code tests. -/

structure EvSpec where
  chain : Bool
  reuse : Bool
  isStatic : Bool
  isHandle : Bool
  isSigs : Bool
  isFd : Bool
  isTime : Bool
  isMutex : Bool
  isSelect : Bool
  untilReadable : Bool
  deriving DecidableEq, Repr

/-- The variadic arguments consumed by `do_pth_event_body`, by kind. -/
structure CtorArgs where
  handle : Nat
  fd : Int
  tv_sec : Nat
  tv_usec : Nat
  rfds : Option (List Int)
  wfds : Option (List Int)
  efds : Option (List Int)
  deriving DecidableEq, Repr

/-- Host oracle for construction: `calloc` and the two native-object
allocators (`create_timer` / `create_event`), `none` meaning failure. -/
structure CtorHost where
  callocFails : Bool
  create_timer : Option Nat
  create_event : Option Nat

/-- A default-initialized (calloc-zeroed) event payload. -/
def zeroEvent : WEvent :=
  { u_type := .untyped, untilReadable := false, fd := 0, tv_sec := 0, tv_usec := 0,
    rfds := none, wfds := none, efds := none, sel_rc := 0, signo := 0, hd := 0,
    status := Status.pending }

/-- The kind-dispatch of `do_pth_event_body` (its final if/else chain,
in source order): fill the kind tag and kind-specific payload into the
calloc-zeroed event. -/
def ctorEvent (spec : EvSpec) (args : CtorArgs) (hd0 : Nat) : WEvent :=
  if spec.isHandle then { zeroEvent with u_type := .handle, hd := args.handle }
  else if spec.isSigs then { zeroEvent with u_type := .sigs, hd := hd0 }
  else if spec.isFd then
    { zeroEvent with u_type := .fd, fd := args.fd,
                     untilReadable := spec.untilReadable, hd := hd0 }
  else if spec.isTime then
    { zeroEvent with u_type := .time, tv_sec := args.tv_sec,
                     tv_usec := args.tv_usec, hd := hd0 }
  else if spec.isMutex then { zeroEvent with u_type := .mutex, hd := hd0 }
  else if spec.isSelect then
    { zeroEvent with u_type := .select, rfds := args.rfds, wfds := args.wfds,
                     efds := args.efds, hd := hd0 }
  else { zeroEvent with hd := hd0 }

/-- `do_pth_event_body`, allocating the node at fresh address `a` of heap
`h`: reject the CHAIN/REUSE modifiers, fail (with the allocation undone)
when `calloc` or the required dedicated native object fails, otherwise
store a singleton PENDING node carrying the kind-specific payload.  The
construction-time `WSAEventSelect` registration of a SELECT event only
changes host socket state and is not modelled here. -/
def do_pth_event_body (host : CtorHost) (h : Heap) (a : Nat) (spec : EvSpec)
    (args : CtorArgs) : Option Nat × Heap :=
  if spec.chain ∨ spec.reuse then (none, h)
  else if host.callocFails then (none, h)
  else
    match (if spec.isHandle then some 0
           else if spec.isTime then host.create_timer
           else host.create_event) with
    | none => (none, h)
    | some hd0 => (some a, setNode h a ⟨a, a, ctorEvent spec args hd0⟩)

/-! ## Event status query -/

/-- `pth_event_status`: NULL yields 0 before anything else runs. -/
def pth_event_status (h : Heap) (ev : Nat) : Int :=
  if ev = 0 then 0 else statusCode (h ev).ev.status

/-- `pth_event_occurred`: the status equals the OCCURRED encoding. -/
def pth_event_occurred (h : Heap) (ev : Nat) : Bool :=
  pth_event_status h ev = statusCode Status.occurred

/-! ## Mutex acquire -/

/-- Host oracle for `pth_mutex_acquire`: the code returned by
`WaitForSingleObject (*mutex, INFINITE)` for a given mutex handle. -/
structure MutexHost where
  wfso : Nat → Nat

/-- `pth_mutex_acquire (mutex, tryonly, ev_extra)`: the `tryonly` and
`ev_extra` arguments are accepted but never read; the result is TRUE
exactly for WAIT_OBJECT_0 and FALSE for WAIT_FAILED or any unexpected
code. -/
def pth_mutex_acquire (host : MutexHost) (mutex : Nat) (tryonly : Bool)
    (evExtra : Option Nat) : Bool :=
  let code := host.wfso mutex
  if code = WAIT_FAILED then false
  else if code = WAIT_OBJECT_0 then true
  else false

/-! ## Thread cancel / abort -/

/-- Host oracle for forced thread termination: whether
`TerminateThread (hd, 0)` succeeds for a handle. -/
structure ThreadHost where
  terminateOk : Nat → Bool

/-- `pth_cancel (hd)` (handle 0 is NULL): −1 for NULL with nothing else
done; otherwise wait up to a second for the thread, terminate it,
decrement the thread counter only if termination succeeded, and return
TRUE.  Result is `(return value, new thread counter)`. -/
def pth_cancel (host : ThreadHost) (counter : Int) (hd : Nat) : Int × Int :=
  if hd = 0 then (-1, counter)
  else (1, if host.terminateOk hd then counter - 1 else counter)

/-- `pth_abort (hd)`: identical to `pth_cancel` except for the missing
grace-period wait (not an observable we track). -/
def pth_abort (host : ThreadHost) (counter : Int) (hd : Nat) : Int × Int :=
  if hd = 0 then (-1, counter)
  else (1, if host.terminateOk hd then counter - 1 else counter)

/-- A concrete three-node ring 1 → 2 → 3 → 1. -/
def wit4Heap : Heap := fun a =>
  if a = 1 then ⟨2, 3, zeroEvent⟩
  else if a = 2 then ⟨3, 1, zeroEvent⟩
  else if a = 3 then ⟨1, 2, zeroEvent⟩
  else ⟨0, 0, zeroEvent⟩

/-- A concrete singleton ring at address 5. -/
def wit4Singleton : Heap := fun a =>
  if a = 5 then ⟨5, 5, zeroEvent⟩ else ⟨0, 0, zeroEvent⟩

/-- A host for which every allocation succeeds. -/
def wit7Host : CtorHost := ⟨false, some 11, some 12⟩

/-- A host whose `create_event` allocation fails. -/
def wit7HostNoAlloc : CtorHost := ⟨false, some 11, none⟩

def wit7Heap : Heap := fun _ => ⟨0, 0, zeroEvent⟩

/-- A spec requesting the CHAIN modifier. -/
def wit7ChainSpec : EvSpec :=
  ⟨true, false, false, false, false, false, false, false, false, false⟩

/-- A spec requesting an FD event (needs `create_event`). -/
def wit7FdSpec : EvSpec :=
  ⟨false, false, false, false, false, true, false, false, false, true⟩

/-- A spec requesting a TIME event. -/
def wit7TimeSpec : EvSpec :=
  ⟨false, false, false, false, false, false, true, false, false, false⟩

def wit7Args : CtorArgs := ⟨0, 3, 1, 500, none, none, none⟩

/-- Number of events of a ring whose status is OCCURRED. -/
def occurredCount (evs : List WEvent) : Nat :=
  evs.countP (fun e => decide (e.status = Status.occurred))

/-- A deterministic host oracle for concrete runs: no sockets, no
failures, handle 21 tests signaled, the blocking wait returns 0. -/
def witHost : Host :=
  { fd_is_socket := fun _ => false
    sockEvent := fun k => 100 + k
    wsaEventSelectFails := fun _ => false
    reader_ev := fun _ => none
    writer_ev := fun _ => none
    setTimerFails := fun _ _ => false
    wfmo := fun _ => 0
    signaled := fun h => h == 21
    enumFails := fun _ => false
    netEvents := fun _ => 0
    pth_signo := 7 }

/-- A HANDLE event bound to native handle 21. -/
def witEvH : WEvent := { zeroEvent with u_type := EvKind.handle, hd := 21 }

/-- A TIME event of 1 s and 1500 µs bound to timer handle 33. -/
def witEvT : WEvent :=
  { zeroEvent with u_type := EvKind.time, tv_sec := 1, tv_usec := 1500, hd := 33 }

/-- The descriptor reports read readiness (FD_READ or FD_ACCEPT). -/
def readReady (host : Host) (fd : Int) : Bool :=
  decide (host.netEvents fd &&& (FD_READ ||| FD_ACCEPT) ≠ 0)

/-- The descriptor reports write readiness (FD_WRITE). -/
def writeReady (host : Host) (fd : Int) : Bool :=
  decide (host.netEvents fd &&& FD_WRITE ≠ 0)

/-- The descriptor reports exceptional readiness (FD_OOB or FD_CLOSE). -/
def exceptReady (host : Host) (fd : Int) : Bool :=
  decide (host.netEvents fd &&& (FD_OOB ||| FD_CLOSE) ≠ 0)

/-- The host of the select round-trip example: fd 1 is read-ready, fd 3
is write-ready, slot handle 21 is signaled. -/
def wit2Host : Host :=
  { fd_is_socket := fun _ => false
    sockEvent := fun k => 100 + k
    wsaEventSelectFails := fun _ => false
    reader_ev := fun _ => none
    writer_ev := fun _ => none
    setTimerFails := fun _ _ => false
    wfmo := fun _ => 0
    signaled := fun h => h == 21
    enumFails := fun _ => false
    netEvents := fun fd => (if fd = 1 then FD_READ else if fd = 3 then FD_WRITE else 0)
    pth_signo := 7 }

/-- A SELECT event with read = {1, 2}, write = {3}, except = {}. -/
def wit2Ev : WEvent :=
  { zeroEvent with
    u_type := EvKind.select
    rfds := some [1, 2]
    wfds := some [3]
    efds := some ([] : List Int)
    hd := 21 }

/-! ## Theorems -/

/-- C8: for every mutex and every value of the `try_only` flag (and of
the unsupported `ev_extra` argument), `pth_mutex_acquire` behaves
identically — the blocking host wait decides the result alone, reporting
success exactly when ownership was obtained (WAIT_OBJECT_0) and failure
otherwise. -/
theorem pth_mutex_acquire_spec (host : MutexHost) (mutex : Nat) (t1 t2 : Bool)
    (e1 e2 : Option Nat) :
    pth_mutex_acquire host mutex t1 e1 = pth_mutex_acquire host mutex t2 e2 ∧
    (pth_mutex_acquire host mutex t1 e1 = true ↔ host.wfso mutex = WAIT_OBJECT_0) := by
  unfold pth_mutex_acquire
  refine ⟨rfl, ?_⟩
  simp only [WAIT_FAILED, WAIT_OBJECT_0]
  by_cases h1 : host.wfso mutex = 4294967295
  · simp [h1]
  · by_cases h2 : host.wfso mutex = 0 <;> simp [h1, h2]

/-- C9: for every non-null thread handle, `pth_cancel` and `pth_abort`
return TRUE (1) regardless of whether `TerminateThread` succeeded, and
decrement the thread counter exactly when it did; a null handle yields
−1 from both with the counter untouched. -/
theorem pth_cancel_abort_spec (host : ThreadHost) (counter : Int) (hd : Nat) :
    (hd ≠ 0 →
      pth_cancel host counter hd =
        (1, if host.terminateOk hd then counter - 1 else counter) ∧
      pth_abort host counter hd =
        (1, if host.terminateOk hd then counter - 1 else counter)) ∧
    (hd = 0 →
      pth_cancel host counter hd = (-1, counter) ∧
      pth_abort host counter hd = (-1, counter)) := by
  unfold pth_cancel pth_abort
  constructor
  · intro h; simp [h]
  · intro h; simp [h]

theorem pth_cancel_abort_spec_witness :
    (pth_cancel ⟨fun _ => false⟩ 5 7 = (1, 5) ∧
      pth_abort ⟨fun _ => false⟩ 5 7 = (1, 5)) ∧
    (pth_cancel ⟨fun _ => false⟩ 5 0 = (-1, 5) ∧
      pth_abort ⟨fun _ => false⟩ 5 0 = (-1, 5)) := by
  constructor
  · have h := (pth_cancel_abort_spec ⟨fun _ => false⟩ 5 7).1 (by decide)
    simpa using h
  · exact (pth_cancel_abort_spec ⟨fun _ => false⟩ 5 0).2 rfl

/-- C10: querying the status of the NULL event is total and effect-free
(the embedding of the NULL path is a pure function of the heap):
`pth_event_status` yields 0, which is the PENDING encoding and not an
error, and consequently `pth_event_occurred` yields false. -/
theorem pth_event_status_null (h : Heap) :
    pth_event_status h 0 = 0 ∧ pth_event_status h 0 = statusCode Status.pending ∧
    pth_event_occurred h 0 = false := by
  refine ⟨rfl, rfl, ?_⟩
  simp [pth_event_occurred, pth_event_status, statusCode]

/-! ### Heap setter lemmas -/

theorem setNext_next (h : Heap) (a v x : Nat) :
    (setNext h a v x).next = if x = a then v else (h x).next := by
  unfold setNext; split <;> rfl

theorem setNext_prev (h : Heap) (a v x : Nat) :
    (setNext h a v x).prev = (h x).prev := by
  unfold setNext; split <;> rfl

theorem setPrev_prev (h : Heap) (a v x : Nat) :
    (setPrev h a v x).prev = if x = a then v else (h x).prev := by
  unfold setPrev; split <;> rfl

theorem setPrev_next (h : Heap) (a v x : Nat) :
    (setPrev h a v x).next = (h x).next := by
  unfold setPrev; split <;> rfl

theorem linked_iff (h : Heap) (a b : Nat) :
    linked h a b ↔ (h a).next = b ∧ (h b).prev = a := Iff.rfl

theorem isRing_iff (h : Heap) (l : List Nat) :
    isRing h l ↔
      l ≠ [] ∧ l.Nodup ∧ List.Chain' (linked h) l ∧
        linked h (l.getLastD 0) (l.headD 0) := Iff.rfl

/-- Field-level description of the pointer surgery of `pth_event_isolate`
on the non-singleton branch: the extracted node points to itself, its old
predecessor's `next` jumps to its old successor, the old successor's
`prev` jumps back to the old predecessor, and every other link is
untouched. -/
theorem isolate_fields (h : Heap) (e : Nat) (he0 : ¬e = 0)
    (hcond : ¬((h e).next = e ∧ (h e).prev = e))
    (hpe : (h e).prev ≠ e) :
    (pth_event_isolate h e).1 = some ((h e).next) ∧
    (∀ x, ((pth_event_isolate h e).2 x).next =
        (if x = e then e else if x = (h e).prev then (h e).next else (h x).next)) ∧
    (∀ x, ((pth_event_isolate h e).2 x).prev =
        (if x = e then e else if x = (h e).next then (h e).prev else (h x).prev)) := by
  have hiso : pth_event_isolate h e =
      (some ((h e).next),
       setNext (setPrev (setPrev (setNext h ((h e).prev) ((h e).next))
         ((setNext h ((h e).prev) ((h e).next) e).next)
         ((setNext h ((h e).prev) ((h e).next) e).prev)) e e) e e) := by
    unfold pth_event_isolate
    rw [if_neg he0, if_neg hcond]
  rw [hiso]
  have he1n : (setNext h ((h e).prev) ((h e).next) e).next = (h e).next := by
    rw [setNext_next, if_neg (Ne.symm hpe)]
  have he1p : (setNext h ((h e).prev) ((h e).next) e).prev = (h e).prev := by
    rw [setNext_prev]
  rw [he1n, he1p]
  refine ⟨rfl, fun x => ?_, fun x => ?_⟩
  · rw [setNext_next]
    by_cases hxe : x = e
    · rw [if_pos hxe, if_pos hxe]
    · rw [if_neg hxe, if_neg hxe, setPrev_next, setPrev_next, setNext_next]
  · rw [setNext_prev, setPrev_prev]
    by_cases hxe : x = e
    · rw [if_pos hxe, if_pos hxe]
    · rw [if_neg hxe, if_neg hxe, setPrev_prev, setNext_prev]

/-- C4: isolating a member of an N-node ring (N > 1) leaves that node a
singleton (next = prev = self), returns the successor as the entry point
of the remainder, and the remaining N−1 nodes form a valid ring; on the
sole member of a singleton ring it returns NULL and leaves the heap (and
hence the singleton ring) untouched. -/
theorem pth_event_isolate_spec (h : Heap) (e : Nat) (rest : List Nat) (he0 : e ≠ 0) :
    (isRing h (e :: rest) → rest ≠ [] →
      (pth_event_isolate h e).1 = some (rest.headD 0) ∧
      ((pth_event_isolate h e).2 e).next = e ∧
      ((pth_event_isolate h e).2 e).prev = e ∧
      isRing (pth_event_isolate h e).2 rest) ∧
    (isRing h [e] → pth_event_isolate h e = (none, h) ∧ isRing h [e]) := by
  constructor
  · intro hring hne
    match rest, hne with
    | b :: t, _ =>
      rw [isRing_iff] at hring
      obtain ⟨-, hnodup, hchain, hwrap⟩ := hring
      have hgl0 : (e :: b :: t).getLastD 0 = t.getLastD b := by
        rw [List.getLastD_cons, List.getLastD_cons]
      have hwrap' : linked h (t.getLastD b) e := by
        rw [hgl0] at hwrap; exact hwrap
      obtain ⟨heb, hchain'⟩ := List.chain'_cons.mp hchain
      have henotin : e ∉ b :: t := (List.nodup_cons.mp hnodup).1
      have hnodup' : (b :: t).Nodup := (List.nodup_cons.mp hnodup).2
      have hglst : (b :: t).getLast (List.cons_ne_nil b t) = t.getLastD b :=
        List.getLast_eq_getLastD _ _ _
      have hpmem : t.getLastD b ∈ b :: t := by
        rw [← hglst]; exact List.getLast_mem (List.cons_ne_nil b t)
      have hpe : t.getLastD b ≠ e := fun hh => henotin (hh ▸ hpmem)
      have hbe : b ≠ e := fun hh => henotin (hh ▸ List.mem_cons_self b t)
      have hnext : (h e).next = b := heb.1
      have hprev : (h e).prev = t.getLastD b := hwrap'.2
      have hcond : ¬((h e).next = e ∧ (h e).prev = e) := fun hc =>
        hbe (hnext.symm.trans hc.1)
      have hpe' : (h e).prev ≠ e := by rw [hprev]; exact hpe
      obtain ⟨hfst, hnextf, hprevf⟩ := isolate_fields h e he0 hcond hpe'
      have hpget : t.getLastD b =
          (b :: t).get ⟨(b :: t).length - 1, by simp⟩ := by
        rw [← hglst]; exact List.getLast_eq_get _ _
      refine ⟨by rw [hfst, hnext]; rfl, ?_, ?_, ?_⟩
      · rw [hnextf e, if_pos rfl]
      · rw [hprevf e, if_pos rfl]
      · rw [isRing_iff]
        refine ⟨List.cons_ne_nil b t, hnodup', ?_, ?_⟩
        · rw [List.chain'_iff_get]
          intro i hi
          have hlink := List.chain'_iff_get.mp hchain' i hi
          have hilt : i < (b :: t).length := by omega
          have hi1lt : i + 1 < (b :: t).length := by omega
          have hgimem : (b :: t).get ⟨i, hilt⟩ ∈ b :: t := List.get_mem _ _ _
          have hgi1mem : (b :: t).get ⟨i + 1, hi1lt⟩ ∈ b :: t :=
            List.get_mem _ _ _
          have hgie : (b :: t).get ⟨i, hilt⟩ ≠ e := fun hh =>
            henotin (hh ▸ hgimem)
          have hgi1e : (b :: t).get ⟨i + 1, hi1lt⟩ ≠ e := fun hh =>
            henotin (hh ▸ hgi1mem)
          have hgip : (b :: t).get ⟨i, hilt⟩ ≠ t.getLastD b := by
            rw [hpget]
            intro hh
            have h2 := (hnodup'.get_inj_iff).mp hh
            simp only [Fin.mk.injEq] at h2
            omega
          have hb0 : b = (b :: t).get ⟨0, by simp⟩ := rfl
          have hgi1b : (b :: t).get ⟨i + 1, hi1lt⟩ ≠ b := by
            intro hh
            have h2 := (hnodup'.get_inj_iff).mp (hh.trans hb0)
            simp only [Fin.mk.injEq] at h2
            omega
          constructor
          · rw [hnextf, if_neg hgie, hprev, if_neg hgip]
            exact hlink.1
          · rw [hprevf, if_neg hgi1e, hnext, if_neg hgi1b]
            exact hlink.2
        · have hgl2 : (b :: t).getLastD 0 = t.getLastD b :=
            List.getLastD_cons _ _ _
          have hhd : (b :: t).headD 0 = b := rfl
          rw [linked_iff, hgl2, hhd]
          constructor
          · rw [hnextf, if_neg hpe, hprev, if_pos rfl, hnext]
          · rw [hprevf, if_neg hbe, hnext, if_pos rfl, hprev]
  · intro hring
    rw [isRing_iff] at hring
    obtain ⟨-, -, -, hw⟩ := hring
    have hw' : (h e).next = e ∧ (h e).prev = e := hw
    constructor
    · unfold pth_event_isolate
      rw [if_neg he0, if_pos hw']
    · rw [isRing_iff]
      exact ⟨List.cons_ne_nil e [], List.nodup_singleton e, List.chain'_singleton e, hw⟩

theorem pth_event_isolate_spec_witness :
    ((pth_event_isolate wit4Heap 1).1 = some 2 ∧
      ((pth_event_isolate wit4Heap 1).2 1).next = 1 ∧
      ((pth_event_isolate wit4Heap 1).2 1).prev = 1 ∧
      isRing (pth_event_isolate wit4Heap 1).2 [2, 3]) ∧
    (pth_event_isolate wit4Singleton 5 = (none, wit4Singleton) ∧
      isRing wit4Singleton [5]) := by
  have hr3 : isRing wit4Heap [1, 2, 3] := by
    rw [isRing_iff]
    exact ⟨by decide, by decide,
      List.chain'_cons.mpr ⟨by decide,
        List.chain'_cons.mpr ⟨by decide, List.chain'_singleton 3⟩⟩,
      by decide⟩
  have hr1 : isRing wit4Singleton [5] := by
    rw [isRing_iff]
    exact ⟨by decide, by decide, List.chain'_singleton 5, by decide⟩
  constructor
  · have h := (pth_event_isolate_spec wit4Heap 1 [2, 3] (by decide)).1
      hr3 (by decide)
    simpa using h
  · exact (pth_event_isolate_spec wit4Singleton 5 [] (by decide)).2 hr1

theorem ctorEvent_status (spec : EvSpec) (args : CtorArgs) (hd0 : Nat) :
    (ctorEvent spec args hd0).status = Status.pending := by
  unfold ctorEvent
  split_ifs <;> rfl

/-- C7: event construction returns NULL when the CHAIN or REUSE modifier
is requested, or when the required dedicated native waitable object
cannot be allocated — in both cases the heap is exactly the input heap
(no partial state); and every successful construction yields a singleton
ring (next = prev = self) whose event is PENDING. -/
theorem do_pth_event_body_spec (host : CtorHost) (h : Heap) (a : Nat)
    (spec : EvSpec) (args : CtorArgs) :
    (spec.chain = true ∨ spec.reuse = true →
      do_pth_event_body host h a spec args = (none, h)) ∧
    ((if spec.isHandle then some 0
      else if spec.isTime then host.create_timer
      else host.create_event) = none →
      do_pth_event_body host h a spec args = (none, h)) ∧
    (∀ r h2, do_pth_event_body host h a spec args = (some r, h2) →
      r = a ∧ isRing h2 [r] ∧ (h2 r).ev.status = Status.pending) := by
  refine ⟨?_, ?_, ?_⟩
  · intro hcr
    unfold do_pth_event_body
    rw [if_pos hcr]
  · intro halloc
    unfold do_pth_event_body
    split
    · rfl
    split
    · rfl
    rw [halloc]
  · intro r h2 hres
    unfold do_pth_event_body at hres
    split at hres
    · simp at hres
    split at hres
    · simp at hres
    split at hres
    · simp at hres
    rename_i hd0 heq
    simp only [Prod.mk.injEq, Option.some.injEq] at hres
    obtain ⟨har, hh2⟩ := hres
    subst har
    subst hh2
    have hn : setNode h a (⟨a, a, ctorEvent spec args hd0⟩ : EvNode) a =
        ⟨a, a, ctorEvent spec args hd0⟩ := by
      unfold setNode; simp
    refine ⟨rfl, ?_, ?_⟩
    · rw [isRing_iff]
      refine ⟨List.cons_ne_nil a [], List.nodup_singleton a,
        List.chain'_singleton a, ?_⟩
      rw [linked_iff]
      constructor
      · show (setNode h a _ a).next = a
        rw [hn]
      · show (setNode h a _ a).prev = a
        rw [hn]
    · show (setNode h a _ a).ev.status = Status.pending
      rw [hn]
      exact ctorEvent_status spec args hd0

theorem do_pth_event_body_spec_witness :
    do_pth_event_body wit7Host wit7Heap 7 wit7ChainSpec wit7Args =
      (none, wit7Heap) ∧
    do_pth_event_body wit7HostNoAlloc wit7Heap 7 wit7FdSpec wit7Args =
      (none, wit7Heap) ∧
    (7 = 7 ∧
      isRing (do_pth_event_body wit7Host wit7Heap 7 wit7TimeSpec wit7Args).2 [7] ∧
      ((do_pth_event_body wit7Host wit7Heap 7 wit7TimeSpec wit7Args).2 7).ev.status =
        Status.pending) := by
  refine ⟨?_, ?_, ?_⟩
  · exact (do_pth_event_body_spec wit7Host wit7Heap 7 wit7ChainSpec wit7Args).1
      (Or.inl rfl)
  · exact (do_pth_event_body_spec wit7HostNoAlloc wit7Heap 7 wit7FdSpec
      wit7Args).2.1 rfl
  · exact (do_pth_event_body_spec wit7Host wit7Heap 7 wit7TimeSpec wit7Args).2.2
      7 (do_pth_event_body wit7Host wit7Heap 7 wit7TimeSpec wit7Args).2 rfl

/-! ### Action-trace lemmas for the resolution phase -/

theorem selUpdR_acts (host : Host) (it : FdItem) (st : SelSt) :
    (selUpdR host it st).acts = st.acts := by
  unfold selUpdR; split <;> rfl

theorem selUpdW_acts (host : Host) (it : FdItem) (st : SelSt) :
    (selUpdW host it st).acts = st.acts := by
  unfold selUpdW; split <;> rfl

theorem selUpdE_acts (host : Host) (it : FdItem) (st : SelSt) :
    (selUpdE host it st).acts = st.acts := by
  unfold selUpdE; split <;> rfl

theorem selStep_acts (host : Host) (st : SelSt) (it : FdItem) :
    (selStep host st it).acts = st.acts ∨
    (selStep host st it).acts =
      st.acts ++ [HostAction.wsaEventSelectClear it.fd, HostAction.ioctlBlocking it.fd] := by
  unfold selStep
  split
  · exact Or.inl rfl
  · right
    simp [selUpdE_acts, selUpdW_acts, selUpdR_acts]

/-- The SELECT resolution loop only ever appends restoration actions. -/
theorem selLoop_acts_no_reset (host : Host) (ar : List FdItem) (st : SelSt)
    (h : ∀ k, HostAction.resetEvent k ∉ st.acts) :
    ∀ k, HostAction.resetEvent k ∉ (ar.foldl (selStep host) st).acts := by
  induction ar generalizing st with
  | nil => exact h
  | cons it rest ih =>
    intro k
    rw [List.foldl_cons]
    apply ih
    intro k2 hmem
    rcases selStep_acts host st it with he | he <;> rw [he] at hmem
    · exact h k2 hmem
    · rcases List.mem_append.mp hmem with h1 | h1
      · exact h k2 h1
      · simp at h1

theorem selResolve_no_reset (host : Host) (e : WEvent) :
    ∀ k, HostAction.resetEvent k ∉ (selResolve host e).2 := by
  unfold selResolve
  apply selLoop_acts_no_reset
  intro k
  simp

/-- C5: for a contributed slot observed to be signaled, the resolution
step of the wait emits a reset of the slot's native object exactly when
the owning event's kind is neither TIME nor FD; an unsignaled slot is
never reset. -/
theorem resolveOne_reset (host : Host) (e : WEvent) (hd : Nat) :
    (host.signaled hd = true →
      (HostAction.resetEvent hd ∈ (resolveOne host e hd).2.2 ↔
        (e.u_type ≠ EvKind.time ∧ e.u_type ≠ EvKind.fd))) ∧
    (host.signaled hd = false →
      HostAction.resetEvent hd ∉ (resolveOne host e hd).2.2) := by
  constructor
  · intro hsig
    unfold resolveOne
    rw [hsig]
    cases he : e.u_type <;>
      simp [he, selResolve_no_reset host { e with status := Status.occurred } hd]
  · intro hsig
    unfold resolveOne
    rw [hsig]
    simp only [Bool.false_eq_true, if_false]
    split <;> simp

theorem resolveOne_reset_witness :
    let host : Host :=
      { fd_is_socket := fun _ => false, sockEvent := fun k => 100 + k,
        wsaEventSelectFails := fun _ => false, reader_ev := fun _ => none,
        writer_ev := fun _ => none, setTimerFails := fun _ _ => false,
        wfmo := fun _ => 0, signaled := fun _ => true,
        enumFails := fun _ => false, netEvents := fun _ => 0, pth_signo := 0 }
    (HostAction.resetEvent 9 ∈
        (resolveOne host { zeroEvent with u_type := EvKind.handle } 9).2.2 ↔
      (EvKind.handle ≠ EvKind.time ∧ EvKind.handle ≠ EvKind.fd)) := by
  intro host
  exact (resolveOne_reset host { zeroEvent with u_type := EvKind.handle } 9).1 rfl

/-! ### Trace characterizations -/

/-- Every action of the SELECT resolution loop is either inherited or a
restoration action. -/
theorem selLoop_acts_char (host : Host) (ar : List FdItem) (st : SelSt) :
    ∀ a ∈ (ar.foldl (selStep host) st).acts,
      a ∈ st.acts ∨ (∃ fd, a = HostAction.wsaEventSelectClear fd) ∨
        (∃ fd, a = HostAction.ioctlBlocking fd) := by
  induction ar generalizing st with
  | nil => exact fun a ha => Or.inl ha
  | cons it rest ih =>
    intro a ha
    rw [List.foldl_cons] at ha
    rcases ih (selStep host st it) a ha with h1 | h1 | h1
    · rcases selStep_acts host st it with he | he <;> rw [he] at h1
      · exact Or.inl h1
      · rcases List.mem_append.mp h1 with h2 | h2
        · exact Or.inl h2
        · rcases List.mem_cons.mp h2 with h3 | h3
          · exact Or.inr (Or.inl ⟨it.fd, h3⟩)
          · simp at h3
            exact Or.inr (Or.inr ⟨it.fd, h3⟩)
    · exact Or.inr (Or.inl h1)
    · exact Or.inr (Or.inr h1)

/-- Every action of the per-slot resolution step is a reset, a
restoration or a cleanup action. -/
theorem resolveOne_acts_char (host : Host) (e : WEvent) (hd : Nat) :
    ∀ a ∈ (resolveOne host e hd).2.2,
      (∃ k, a = HostAction.resetEvent k) ∨
      (∃ fd, a = HostAction.wsaEventSelectClear fd) ∨
      (∃ fd, a = HostAction.ioctlBlocking fd) ∨
      (∃ k, a = HostAction.wsaCloseEvent k) := by
  intro a ha
  unfold resolveOne at ha
  have hclean : ∀ b ∈ (if e.u_type = EvKind.fd ∧ host.fd_is_socket e.fd = true then
      [HostAction.wsaEventSelectClear e.fd, HostAction.wsaCloseEvent hd]
      else ([] : List HostAction)),
      (∃ fd, b = HostAction.wsaEventSelectClear fd) ∨
        (∃ k, b = HostAction.wsaCloseEvent k) := by
    intro b hb
    split at hb
    · rcases List.mem_cons.mp hb with h1 | h1
      · exact Or.inl ⟨e.fd, h1⟩
      · simp at h1
        exact Or.inr ⟨hd, h1⟩
    · simp at hb
  by_cases hsig : host.signaled hd = true
  · rw [hsig] at ha
    simp only [if_true] at ha
    rcases List.mem_append.mp ha with h1 | h1
    · -- acts2 part: kind payload actions plus the conditional reset
      rcases he : e.u_type <;> simp [he] at h1 <;>
        first
        | exact Or.inl ⟨hd, h1⟩
        | (rcases h1 with h2 | h2
           · rcases selLoop_acts_char host _ _ a h2 with h3 | h3 | h3
             · simp at h3
             · exact Or.inr (Or.inl h3)
             · exact Or.inr (Or.inr (Or.inl h3))
           · exact Or.inl ⟨hd, h2⟩)
    · rcases hclean a h1 with h2 | h2
      · exact Or.inr (Or.inl h2)
      · exact Or.inr (Or.inr (Or.inr h2))
  · rw [Bool.not_eq_true] at hsig
    rw [hsig] at ha
    simp only [Bool.false_eq_true, if_false] at ha
    rcases hclean a ha with h2 | h2
    · exact Or.inr (Or.inl h2)
    · exact Or.inr (Or.inr (Or.inr h2))

/-- The resolution loop only ever appends actions. -/
theorem resolveAll_acts_mono (host : Host) :
    ∀ (slots : List (Nat × Nat)) (evs : List WEvent) (c : Nat)
      (acts : List HostAction) (a : HostAction),
      a ∈ acts → a ∈ (resolveAll host slots evs c acts).2.2 := by
  intro slots
  induction slots with
  | nil => intro evs c acts a ha; exact ha
  | cons p rest ih =>
    intro evs c acts a ha
    obtain ⟨i, hd⟩ := p
    unfold resolveAll
    cases hget : evs[i]? with
    | none => exact ih evs c acts a ha
    | some e =>
      exact ih _ _ _ a (List.mem_append.mpr (Or.inl ha))

/-- Every action the resolution loop appends is a reset, a restoration
or a cleanup action. -/
theorem resolveAll_acts_char (host : Host) :
    ∀ (slots : List (Nat × Nat)) (evs : List WEvent) (c : Nat)
      (acts : List HostAction) (a : HostAction),
      a ∈ (resolveAll host slots evs c acts).2.2 →
      a ∈ acts ∨
      (∃ k, a = HostAction.resetEvent k) ∨
      (∃ fd, a = HostAction.wsaEventSelectClear fd) ∨
      (∃ fd, a = HostAction.ioctlBlocking fd) ∨
      (∃ k, a = HostAction.wsaCloseEvent k) := by
  intro slots
  induction slots with
  | nil => intro evs c acts a ha; exact Or.inl ha
  | cons p rest ih =>
    intro evs c acts a ha
    obtain ⟨i, hd⟩ := p
    unfold resolveAll at ha
    cases hget : evs[i]? with
    | none =>
      rw [hget] at ha
      exact ih evs c acts a ha
    | some e =>
      rw [hget] at ha
      rcases ih _ _ _ a ha with h1 | h1
      · rcases List.mem_append.mp h1 with h2 | h2
        · exact Or.inl h2
        · exact Or.inr (resolveOne_acts_char host e hd a h2)
      · exact Or.inr h1

/-- Every action of the contribution walk is a timer arming of a TIME
event of the ring or a socket event registration of an FD event. -/
theorem contribute_acts_char (host : Host) (sigEv : Nat) :
    ∀ (l : List WEvent) (idx fresh : Nat) (a : HostAction),
      a ∈ (contribute host sigEv l idx fresh).2.1 →
      (∃ e ∈ l, e.u_type = EvKind.time ∧ a = HostAction.setTimer e.hd (msOf e)) ∨
      (∃ e ∈ l, ∃ k m, a = HostAction.wsaEventSelectSet e.fd k m) := by
  intro l
  induction l with
  | nil => intro idx fresh a ha; simp [contribute] at ha
  | cons e rest ih =>
    intro idx fresh a ha
    have push : ∀ a,
        ((∃ e2 ∈ rest, e2.u_type = EvKind.time ∧
            a = HostAction.setTimer e2.hd (msOf e2)) ∨
          (∃ e2 ∈ rest, ∃ k m, a = HostAction.wsaEventSelectSet e2.fd k m)) →
        ((∃ e2 ∈ e :: rest, e2.u_type = EvKind.time ∧
            a = HostAction.setTimer e2.hd (msOf e2)) ∨
          (∃ e2 ∈ e :: rest, ∃ k m, a = HostAction.wsaEventSelectSet e2.fd k m)) := by
      rintro a (⟨e2, hm, hk, hf⟩ | ⟨e2, hm, k, m, hf⟩)
      · exact Or.inl ⟨e2, List.mem_cons_of_mem e hm, hk, hf⟩
      · exact Or.inr ⟨e2, List.mem_cons_of_mem e hm, k, m, hf⟩
    rcases hrec : contribute host sigEv rest (idx + 1) fresh with ⟨res, acts, f⟩
    rcases hrec2 : contribute host sigEv rest (idx + 1) (fresh + 1) with ⟨res2, acts2, f2⟩
    have ihacts : ∀ a, a ∈ acts → _ := fun a ha2 =>
      ih (idx + 1) fresh a (by rw [hrec]; exact ha2)
    have ihacts2 : ∀ a, a ∈ acts2 → _ := fun a ha2 =>
      ih (idx + 1) (fresh + 1) a (by rw [hrec2]; exact ha2)
    cases he : e.u_type with
    | untyped =>
      simp only [contribute, he, hrec] at ha
      exact push a (ihacts a ha)
    | sigs =>
      simp only [contribute, he, hrec] at ha
      exact push a (ihacts a ha)
    | fd =>
      by_cases hsock : host.fd_is_socket e.fd = true
      · by_cases hfail : host.wsaEventSelectFails e.fd = true
        · simp only [contribute, he, hsock, hfail, hrec2, if_true] at ha
          rcases List.mem_cons.mp ha with h1 | h1
          · exact Or.inr ⟨e, List.mem_cons_self e rest, _, _, h1⟩
          · exact push a (ihacts2 a h1)
        · simp only [contribute, he, hsock, hfail, hrec2, if_true,
            Bool.false_eq_true, if_false] at ha
          rcases List.mem_cons.mp ha with h1 | h1
          · exact Or.inr ⟨e, List.mem_cons_self e rest, _, _, h1⟩
          · exact push a (ihacts2 a h1)
      · rw [Bool.not_eq_true] at hsock
        by_cases hread : e.untilReadable = true
        · cases hre : host.reader_ev e.fd with
          | none =>
            simp only [contribute, he, hsock, hread, hre, hrec,
              Bool.false_eq_true, if_false, if_true] at ha
            exact push a (ihacts a ha)
          | some hdv =>
            simp only [contribute, he, hsock, hread, hre, hrec,
              Bool.false_eq_true, if_false, if_true] at ha
            exact push a (ihacts a ha)
        · rw [Bool.not_eq_true] at hread
          cases hre : host.writer_ev e.fd with
          | none =>
            simp only [contribute, he, hsock, hread, hre, hrec,
              Bool.false_eq_true, if_false] at ha
            exact push a (ihacts a ha)
          | some hdv =>
            simp only [contribute, he, hsock, hread, hre, hrec,
              Bool.false_eq_true, if_false] at ha
            exact push a (ihacts a ha)
    | time =>
      by_cases hfail : host.setTimerFails e.hd (msOf e) = true
      · simp only [contribute, he, hfail, if_true] at ha
        rcases List.mem_cons.mp ha with h1 | h1
        · exact Or.inl ⟨e, List.mem_cons_self e rest, he, h1⟩
        · simp at h1
      · simp only [contribute, he, hfail, Bool.false_eq_true, if_false,
          hrec] at ha
        rcases List.mem_cons.mp ha with h1 | h1
        · exact Or.inl ⟨e, List.mem_cons_self e rest, he, h1⟩
        · exact push a (ihacts a h1)
    | select =>
      simp only [contribute, he, hrec] at ha
      exact push a (ihacts a ha)
    | handle =>
      simp only [contribute, he, hrec] at ha
      exact push a (ihacts a ha)
    | mutex =>
      simp only [contribute, he, hrec] at ha
      exact push a (ihacts a ha)

/-- When no timer arming fails, the contribution walk completes and arms
every TIME event of the ring with its converted duration. -/
theorem contribute_time_complete (host : Host) (sigEv : Nat) :
    ∀ (l : List WEvent) (idx fresh : Nat),
      (∀ e ∈ l, e.u_type = EvKind.time →
        host.setTimerFails e.hd (msOf e) = false) →
      (∃ s, (contribute host sigEv l idx fresh).1 = some s) ∧
      (∀ e ∈ l, e.u_type = EvKind.time →
        HostAction.setTimer e.hd (msOf e) ∈ (contribute host sigEv l idx fresh).2.1) := by
  intro l
  induction l with
  | nil =>
    intro idx fresh hok
    refine ⟨⟨[], rfl⟩, ?_⟩
    intro e hmem
    simp at hmem
  | cons e rest ih =>
    intro idx fresh hok
    have hokr : ∀ e2 ∈ rest, e2.u_type = EvKind.time →
        host.setTimerFails e2.hd (msOf e2) = false := fun e2 hm =>
      hok e2 (List.mem_cons_of_mem e hm)
    rcases hrec : contribute host sigEv rest (idx + 1) fresh with ⟨res, acts, f⟩
    rcases hrec2 : contribute host sigEv rest (idx + 1) (fresh + 1) with ⟨res2, acts2, f2⟩
    have ihr := ih (idx + 1) fresh hokr
    have ihr2 := ih (idx + 1) (fresh + 1) hokr
    obtain ⟨⟨s1, hs1⟩, hm1⟩ := ihr
    obtain ⟨⟨s2, hs2⟩, hm2⟩ := ihr2
    rw [hrec] at hs1 hm1
    rw [hrec2] at hs2 hm2
    have hmm1 : ∀ e2 ∈ rest, e2.u_type = EvKind.time →
        HostAction.setTimer e2.hd (msOf e2) ∈ acts := hm1
    have hmm2 : ∀ e2 ∈ rest, e2.u_type = EvKind.time →
        HostAction.setTimer e2.hd (msOf e2) ∈ acts2 := hm2
    have hstep : ∀ e2 ∈ e :: rest, e2.u_type = EvKind.time → e2 = e ∨ e2 ∈ rest :=
      fun e2 hm _ => List.mem_cons.mp hm
    cases he : e.u_type with
    | time =>
      have hfail : host.setTimerFails e.hd (msOf e) = false :=
        hok e (List.mem_cons_self e rest) he
      constructor
      · refine ⟨(idx, e.hd) :: s1, ?_⟩
        simp [contribute, he, hfail, hrec, hs1]
      · intro e2 hm hk
        simp only [contribute, he, hfail, Bool.false_eq_true, if_false, hrec]
        rcases List.mem_cons.mp hm with h1 | h1
        · subst h1
          exact List.mem_cons_self _ _
        · exact List.mem_cons_of_mem _ (hmm1 e2 h1 hk)
    | untyped =>
      refine ⟨⟨s1, by simp [contribute, he, hrec, hs1]⟩, ?_⟩
      intro e2 hm hk
      simp only [contribute, he, hrec]
      rcases List.mem_cons.mp hm with h1 | h1
      · subst h1; rw [he] at hk; cases hk
      · exact hmm1 e2 h1 hk
    | sigs =>
      refine ⟨⟨(idx, sigEv) :: s1, by simp [contribute, he, hrec, hs1]⟩, ?_⟩
      intro e2 hm hk
      simp only [contribute, he, hrec]
      rcases List.mem_cons.mp hm with h1 | h1
      · subst h1; rw [he] at hk; cases hk
      · exact hmm1 e2 h1 hk
    | select =>
      refine ⟨⟨(idx, e.hd) :: s1, by simp [contribute, he, hrec, hs1]⟩, ?_⟩
      intro e2 hm hk
      simp only [contribute, he, hrec]
      rcases List.mem_cons.mp hm with h1 | h1
      · subst h1; rw [he] at hk; cases hk
      · exact hmm1 e2 h1 hk
    | handle =>
      refine ⟨⟨(idx, e.hd) :: s1, by simp [contribute, he, hrec, hs1]⟩, ?_⟩
      intro e2 hm hk
      simp only [contribute, he, hrec]
      rcases List.mem_cons.mp hm with h1 | h1
      · subst h1; rw [he] at hk; cases hk
      · exact hmm1 e2 h1 hk
    | mutex =>
      refine ⟨⟨s1, by simp [contribute, he, hrec, hs1]⟩, ?_⟩
      intro e2 hm hk
      simp only [contribute, he, hrec]
      rcases List.mem_cons.mp hm with h1 | h1
      · subst h1; rw [he] at hk; cases hk
      · exact hmm1 e2 h1 hk
    | fd =>
      by_cases hsock : host.fd_is_socket e.fd = true
      · by_cases hfail : host.wsaEventSelectFails e.fd = true
        · refine ⟨⟨s2, by simp [contribute, he, hsock, hfail, hrec2, hs2]⟩, ?_⟩
          intro e2 hm hk
          simp only [contribute, he, hsock, hfail, hrec2, if_true]
          rcases List.mem_cons.mp hm with h1 | h1
          · subst h1; rw [he] at hk; cases hk
          · exact List.mem_cons_of_mem _ (hmm2 e2 h1 hk)
        · refine ⟨⟨(idx, host.sockEvent fresh) :: s2,
            by simp [contribute, he, hsock, hfail, hrec2, hs2]⟩, ?_⟩
          intro e2 hm hk
          simp only [contribute, he, hsock, hfail, hrec2, if_true,
            Bool.false_eq_true, if_false]
          rcases List.mem_cons.mp hm with h1 | h1
          · subst h1; rw [he] at hk; cases hk
          · exact List.mem_cons_of_mem _ (hmm2 e2 h1 hk)
      · rw [Bool.not_eq_true] at hsock
        by_cases hread : e.untilReadable = true
        · cases hre : host.reader_ev e.fd with
          | none =>
            refine ⟨⟨s1, by simp [contribute, he, hsock, hread, hre, hrec, hs1]⟩, ?_⟩
            intro e2 hm hk
            simp only [contribute, he, hsock, hread, hre, hrec,
              Bool.false_eq_true, if_false, if_true]
            rcases List.mem_cons.mp hm with h1 | h1
            · subst h1; rw [he] at hk; cases hk
            · exact hmm1 e2 h1 hk
          | some hdv =>
            refine ⟨⟨(idx, hdv) :: s1,
              by simp [contribute, he, hsock, hread, hre, hrec, hs1]⟩, ?_⟩
            intro e2 hm hk
            simp only [contribute, he, hsock, hread, hre, hrec,
              Bool.false_eq_true, if_false, if_true]
            rcases List.mem_cons.mp hm with h1 | h1
            · subst h1; rw [he] at hk; cases hk
            · exact hmm1 e2 h1 hk
        · rw [Bool.not_eq_true] at hread
          cases hre : host.writer_ev e.fd with
          | none =>
            refine ⟨⟨s1, by simp [contribute, he, hsock, hread, hre, hrec, hs1]⟩, ?_⟩
            intro e2 hm hk
            simp only [contribute, he, hsock, hread, hre, hrec,
              Bool.false_eq_true, if_false]
            rcases List.mem_cons.mp hm with h1 | h1
            · subst h1; rw [he] at hk; cases hk
            · exact hmm1 e2 h1 hk
          | some hdv =>
            refine ⟨⟨(idx, hdv) :: s1,
              by simp [contribute, he, hsock, hread, hre, hrec, hs1]⟩, ?_⟩
            intro e2 hm hk
            simp only [contribute, he, hsock, hread, hre, hrec,
              Bool.false_eq_true, if_false]
            rcases List.mem_cons.mp hm with h1 | h1
            · subst h1; rw [he] at hk; cases hk
            · exact hmm1 e2 h1 hk

/-- The slots produced by the contribution walk carry strictly
increasing (hence distinct) ring indices, all at least the start
index. -/
theorem contribute_slots (host : Host) (sigEv : Nat) :
    ∀ (l : List WEvent) (idx fresh : Nat) (s : List (Nat × Nat)),
      (contribute host sigEv l idx fresh).1 = some s →
      (s.map Prod.fst).Nodup ∧ ∀ p ∈ s, idx ≤ p.1 := by
  intro l
  induction l with
  | nil =>
    intro idx fresh s hs
    simp only [contribute] at hs
    obtain rfl : ([] : List (Nat × Nat)) = s := Option.some.inj hs
    exact ⟨List.nodup_nil, by simp⟩
  | cons e rest ih =>
    intro idx fresh s hs
    rcases hrec : contribute host sigEv rest (idx + 1) fresh with ⟨res, acts, f⟩
    rcases hrec2 : contribute host sigEv rest (idx + 1) (fresh + 1) with ⟨res2, acts2, f2⟩
    have hskip : ∀ s2, res = some s2 → (s = s2 →
        (s.map Prod.fst).Nodup ∧ ∀ p ∈ s, idx ≤ p.1) := by
      intro s2 hres2 hss
      subst hss
      obtain ⟨hnd, hge⟩ := ih (idx + 1) fresh _ (by rw [hrec]; exact hres2)
      exact ⟨hnd, fun p hp => le_trans (Nat.le_succ idx) (hge p hp)⟩
    have hskip2 : ∀ s2, res2 = some s2 → (s = s2 →
        (s.map Prod.fst).Nodup ∧ ∀ p ∈ s, idx ≤ p.1) := by
      intro s2 hres2 hss
      subst hss
      obtain ⟨hnd, hge⟩ := ih (idx + 1) (fresh + 1) _ (by rw [hrec2]; exact hres2)
      exact ⟨hnd, fun p hp => le_trans (Nat.le_succ idx) (hge p hp)⟩
    have hcons : ∀ (hdv : Nat) s2, res = some s2 → (s = (idx, hdv) :: s2 →
        (s.map Prod.fst).Nodup ∧ ∀ p ∈ s, idx ≤ p.1) := by
      intro hdv s2 hres2 hss
      subst hss
      obtain ⟨hnd, hge⟩ := ih (idx + 1) fresh s2 (by rw [hrec]; exact hres2)
      refine ⟨List.nodup_cons.mpr ⟨?_, hnd⟩, ?_⟩
      · intro hmem
        obtain ⟨p, hp, hpeq⟩ := List.mem_map.mp hmem
        have := hge p hp
        omega
      · intro p hp
        rcases List.mem_cons.mp hp with h1 | h1
        · subst h1; exact le_refl idx
        · exact le_trans (Nat.le_succ idx) (hge p h1)
    have hcons2 : ∀ (hdv : Nat) s2, res2 = some s2 → (s = (idx, hdv) :: s2 →
        (s.map Prod.fst).Nodup ∧ ∀ p ∈ s, idx ≤ p.1) := by
      intro hdv s2 hres2 hss
      subst hss
      obtain ⟨hnd, hge⟩ := ih (idx + 1) (fresh + 1) s2 (by rw [hrec2]; exact hres2)
      refine ⟨List.nodup_cons.mpr ⟨?_, hnd⟩, ?_⟩
      · intro hmem
        obtain ⟨p, hp, hpeq⟩ := List.mem_map.mp hmem
        have := hge p hp
        omega
      · intro p hp
        rcases List.mem_cons.mp hp with h1 | h1
        · subst h1; exact le_refl idx
        · exact le_trans (Nat.le_succ idx) (hge p h1)
    cases he : e.u_type with
    | untyped =>
      rw [contribute, he, hrec] at hs
      exact hskip s hs rfl
    | mutex =>
      rw [contribute, he, hrec] at hs
      exact hskip s hs rfl
    | sigs =>
      rw [contribute, he, hrec] at hs
      simp only at hs
      cases res with
      | none => simp at hs
      | some s1 =>
        obtain rfl := Option.some.inj hs
        exact hcons sigEv s1 rfl rfl
    | select =>
      rw [contribute, he, hrec] at hs
      simp only at hs
      cases res with
      | none => simp at hs
      | some s1 =>
        obtain rfl := Option.some.inj hs
        exact hcons e.hd s1 rfl rfl
    | handle =>
      rw [contribute, he, hrec] at hs
      simp only at hs
      cases res with
      | none => simp at hs
      | some s1 =>
        obtain rfl := Option.some.inj hs
        exact hcons e.hd s1 rfl rfl
    | time =>
      by_cases hfail : host.setTimerFails e.hd (msOf e) = true
      · rw [contribute, he] at hs
        simp [hfail] at hs
      · rw [contribute, he] at hs
        simp only [hfail, Bool.false_eq_true, if_false, hrec] at hs
        cases res with
        | none => simp at hs
        | some s1 =>
          obtain rfl := Option.some.inj hs
          exact hcons e.hd s1 rfl rfl
    | fd =>
      by_cases hsock : host.fd_is_socket e.fd = true
      · by_cases hfail : host.wsaEventSelectFails e.fd = true
        · rw [contribute, he] at hs
          simp only [hsock, hfail, if_true, hrec2] at hs
          exact hskip2 s hs rfl
        · rw [contribute, he] at hs
          simp only [hsock, hfail, if_true, Bool.false_eq_true, if_false,
            hrec2] at hs
          cases res2 with
          | none => simp at hs
          | some s1 =>
            obtain rfl := Option.some.inj hs
            exact hcons2 (host.sockEvent fresh) s1 rfl rfl
      · rw [Bool.not_eq_true] at hsock
        by_cases hread : e.untilReadable = true
        · cases hre : host.reader_ev e.fd with
          | none =>
            rw [contribute, he] at hs
            simp only [hsock, hread, hre, Bool.false_eq_true, if_false,
              if_true, hrec] at hs
            exact hskip s hs rfl
          | some hdv =>
            rw [contribute, he] at hs
            simp only [hsock, hread, hre, Bool.false_eq_true, if_false,
              if_true, hrec] at hs
            cases res with
            | none => simp at hs
            | some s1 =>
              obtain rfl := Option.some.inj hs
              exact hcons hdv s1 rfl rfl
        · rw [Bool.not_eq_true] at hread
          cases hre : host.writer_ev e.fd with
          | none =>
            rw [contribute, he] at hs
            simp only [hsock, hread, hre, Bool.false_eq_true, if_false,
              hrec] at hs
            exact hskip s hs rfl
          | some hdv =>
            rw [contribute, he] at hs
            simp only [hsock, hread, hre, Bool.false_eq_true, if_false,
              hrec] at hs
            cases res with
            | none => simp at hs
            | some s1 =>
              obtain rfl := Option.some.inj hs
              exact hcons hdv s1 rfl rfl

theorem countP_set {α : Type} (p : α → Bool) :
    ∀ (l : List α) (i : Nat) (x : α) (h : i < l.length),
      (l.set i x).countP p + (if p (l.get ⟨i, h⟩) then 1 else 0) =
        l.countP p + (if p x then 1 else 0) := by
  intro l
  induction l with
  | nil => intro i x h; simp at h
  | cons a t ih =>
    intro i x h
    cases i with
    | zero =>
      simp only [List.set_cons_zero, List.countP_cons, List.get]
      omega
    | succ n =>
      have hn : n < t.length := by simpa using h
      have := ih n x hn
      simp only [List.set_cons_succ, List.countP_cons, List.get]
      omega

theorem selResolve_status (host : Host) (e : WEvent) :
    (selResolve host e).1.status = e.status := rfl

/-- The per-slot resolution step marks the event OCCURRED and counts one
exactly when the slot's object tests signaled; otherwise the event is
returned unchanged. -/
theorem resolveOne_status_count (host : Host) (e : WEvent) (hd : Nat) :
    (resolveOne host e hd).2.1 = (if host.signaled hd = true then 1 else 0) ∧
    (resolveOne host e hd).1.status =
      (if host.signaled hd = true then Status.occurred else e.status) := by
  unfold resolveOne
  by_cases hsig : host.signaled hd = true
  · rw [hsig]
    simp only [if_true]
    constructor
    · cases he : e.u_type <;> simp [he]
    · cases he : e.u_type <;> simp [he, selResolve_status]
  · rw [Bool.not_eq_true] at hsig
    rw [hsig]
    simp

/-- Accounting invariant of the resolution loop: provided the slot
indices are distinct and every indexed event is still PENDING, the count
accumulated equals the number of events newly marked OCCURRED. -/
theorem resolveAll_count (host : Host) :
    ∀ (slots : List (Nat × Nat)) (evs : List WEvent) (c : Nat)
      (acts : List HostAction),
      (slots.map Prod.fst).Nodup →
      (∀ p ∈ slots, ∀ e, evs[p.1]? = some e → e.status = Status.pending) →
      (resolveAll host slots evs c acts).2.1 + occurredCount evs =
        c + occurredCount (resolveAll host slots evs c acts).1 := by
  intro slots
  induction slots with
  | nil => intro evs c acts _ _; rfl
  | cons p rest ih =>
    intro evs c acts hnd hpend
    obtain ⟨i, hd⟩ := p
    have hndr : (rest.map Prod.fst).Nodup := (List.nodup_cons.mp hnd).2
    have hnoti : (i : Nat) ∉ rest.map Prod.fst := by
      have := (List.nodup_cons.mp hnd).1
      simpa using this
    unfold resolveAll
    cases hget : evs[i]? with
    | none =>
      exact ih evs c acts hndr
        (fun q hq => hpend q (List.mem_cons_of_mem _ hq))
    | some e =>
      have hlt : i < evs.length := by
        by_contra hge
        rw [List.getElem?_eq_none (by omega)] at hget
        cases hget
      have hepend : e.status = Status.pending :=
        hpend (i, hd) (List.mem_cons_self _ _) e hget
      have hgete : evs.get ⟨i, hlt⟩ = e := by
        have := List.getElem?_eq_getElem hlt
        rw [hget] at this
        exact (Option.some.inj this).symm
      rcases hro : resolveOne host e hd with ⟨e2, cinc, aadd⟩
      obtain ⟨hc, hs⟩ := resolveOne_status_count host e hd
      rw [hro] at hc hs
      simp only at hc hs
      have hih := ih (evs.set i e2) (c + cinc) (acts ++ aadd) hndr ?pend
      case pend =>
        intro q hq e3 hget3
        have hqi : q.1 ≠ i := by
          intro heq
          exact hnoti (heq ▸ List.mem_map_of_mem Prod.fst hq)
        rw [List.getElem?_set_ne (by omega)] at hget3
        exact hpend q (List.mem_cons_of_mem _ hq) e3 hget3
      have hcount := countP_set (fun e => decide (e.status = Status.occurred))
        evs i e2 hlt
      rw [hgete] at hcount
      have hpe : (decide (e.status = Status.occurred)) = false := by
        rw [hepend]; decide
      have hdelta : occurredCount (evs.set i e2) = occurredCount evs + cinc := by
        unfold occurredCount
        by_cases hsig : host.signaled hd = true
        · rw [hsig] at hc hs
          simp only [if_true] at hc hs
          rw [hpe] at hcount
          rw [hs] at hcount
          simp at hcount
          omega
        · rw [Bool.not_eq_true] at hsig
          rw [hsig] at hc hs
          simp only [Bool.false_eq_true, if_false] at hc hs
          rw [hpe] at hcount
          rw [hs, hepend] at hcount
          simp at hcount
          omega
      simp only [hro]
      omega

/-- Resetting all statuses leaves no event OCCURRED. -/
theorem occurredCount_reset (evs : List WEvent) :
    occurredCount (evs.map (fun e => { e with status := Status.pending })) = 0 := by
  unfold occurredCount
  rw [List.countP_eq_zero]
  intro a ha
  obtain ⟨e, -, rfl⟩ := List.mem_map.mp ha
  simp

/-- C6: every timer armed by the wait belongs to a TIME event of the
ring and is set to `tv_sec * 1000 + (tv_usec + 500) / 1000` milliseconds
(round to nearest, half-up); conversely, when the ring passes validation
and no arming fails, every TIME event's timer is armed with exactly that
value. -/
theorem do_pth_wait_timer_ms (host : Host) (sigEv : Nat) (evs : List WEvent) :
    (∀ h ms, HostAction.setTimer h ms ∈ (do_pth_wait host sigEv evs).2.2 →
      ∃ e ∈ evs, e.u_type = EvKind.time ∧ e.hd = h ∧
        ms = e.tv_sec * 1000 + (e.tv_usec + 500) / 1000) ∧
    (evs ≠ [] → evs.length ≤ MAXIMUM_WAIT_OBJECTS / 2 →
      (∀ e ∈ evs, e.u_type = EvKind.time →
        host.setTimerFails e.hd (msOf e) = false) →
      ∀ e ∈ evs, e.u_type = EvKind.time →
        HostAction.setTimer e.hd (e.tv_sec * 1000 + (e.tv_usec + 500) / 1000) ∈
          (do_pth_wait host sigEv evs).2.2) := by
  constructor
  · intro h ms hmem
    unfold do_pth_wait at hmem
    by_cases hnil : evs = []
    · rw [if_pos hnil] at hmem; simp at hmem
    · rw [if_neg hnil] at hmem
      by_cases hlen : evs.length > MAXIMUM_WAIT_OBJECTS / 2
      · rw [if_pos hlen] at hmem; simp at hmem
      · rw [if_neg hlen] at hmem
        simp only [do_pth_wait_main] at hmem
        rcases hcon : contribute host sigEv
          (evs.map fun e => { e with status := Status.pending }) 0 0 with ⟨res, acts, f⟩
        rw [hcon] at hmem
        have hfromacts : HostAction.setTimer h ms ∈ acts →
            ∃ e ∈ evs, e.u_type = EvKind.time ∧ e.hd = h ∧
              ms = e.tv_sec * 1000 + (e.tv_usec + 500) / 1000 := by
          intro hmem2
          have hchar := contribute_acts_char host sigEv
            (evs.map fun e => { e with status := Status.pending }) 0 0 _
            (by rw [hcon]; exact hmem2)
          rcases hchar with ⟨e1, hm1, hk1, hf1⟩ | ⟨e1, hm1, k, m, hf1⟩
          · obtain ⟨e0, hm0, rfl⟩ := List.mem_map.mp hm1
            simp only [HostAction.setTimer.injEq] at hf1
            exact ⟨e0, hm0, hk1, hf1.1.symm, hf1.2⟩
          · simp at hf1
        cases res with
        | none => exact hfromacts hmem
        | some slots =>
          rcases hres : resolveAll host slots
            (evs.map fun e => { e with status := Status.pending }) 0
            (acts ++ [HostAction.wfmoCall (host.wfmo (slots.map Prod.snd))])
            with ⟨evs2, count, acts2⟩
          simp only [hres] at hmem
          have hchar := resolveAll_acts_char host slots
            (evs.map fun e => { e with status := Status.pending }) 0 _ _
            (by rw [hres]; exact hmem)
          rcases hchar with h1 | h1
          · rcases List.mem_append.mp h1 with h2 | h2
            · exact hfromacts h2
            · simp at h2
          · rcases h1 with ⟨k, hk⟩ | ⟨fd, hk⟩ | ⟨fd, hk⟩ | ⟨k, hk⟩ <;> simp at hk
  · intro hnil hlen hok e hmem hk
    unfold do_pth_wait
    rw [if_neg hnil, if_neg (by omega : ¬evs.length > MAXIMUM_WAIT_OBJECTS / 2)]
    simp only [do_pth_wait_main]
    have hok1 : ∀ e2 ∈ evs.map (fun e => { e with status := Status.pending }),
        e2.u_type = EvKind.time → host.setTimerFails e2.hd (msOf e2) = false := by
      intro e2 hm2 hk2
      obtain ⟨e0, hm0, rfl⟩ := List.mem_map.mp hm2
      exact hok e0 hm0 hk2
    obtain ⟨⟨slots, hslots⟩, hmembers⟩ := contribute_time_complete host sigEv
      (evs.map fun e => { e with status := Status.pending }) 0 0 hok1
    rcases hcon : contribute host sigEv
      (evs.map fun e => { e with status := Status.pending }) 0 0 with ⟨res, acts, f⟩
    rw [hcon] at hslots hmembers
    simp only at hslots hmembers
    subst hslots
    rw [hcon]
    rcases hres : resolveAll host slots
      (evs.map fun e => { e with status := Status.pending }) 0
      (acts ++ [HostAction.wfmoCall (host.wfmo (slots.map Prod.snd))])
      with ⟨evs2, count, acts2⟩
    simp only [hres]
    show HostAction.setTimer e.hd (msOf e) ∈ acts2
    have hin : HostAction.setTimer e.hd (msOf e) ∈
        acts ++ [HostAction.wfmoCall (host.wfmo (slots.map Prod.snd))] := by
      apply List.mem_append.mpr
      left
      have := hmembers ({ e with status := Status.pending })
        (List.mem_map_of_mem _ hmem) hk
      exact this
    have := resolveAll_acts_mono host slots
      (evs.map fun e => { e with status := Status.pending }) 0
      (acts ++ [HostAction.wfmoCall (host.wfmo (slots.map Prod.snd))]) _ hin
    rw [hres] at this
    exact this

/-- C3: a ring with more than MAXIMUM_WAIT_OBJECTS/2 nodes is rejected
with −1 before any blocking call or mutation (result ring and trace are
untouched/empty); a ring with exactly MAXIMUM_WAIT_OBJECTS/2 nodes
passes validation into the wait body, and (absent timer-arming failures)
reaches the blocking multi-object wait. -/
theorem do_pth_wait_capacity (host : Host) (sigEv : Nat) (evs : List WEvent) :
    (evs.length > MAXIMUM_WAIT_OBJECTS / 2 →
      do_pth_wait host sigEv evs = (-1, evs, [])) ∧
    (evs ≠ [] → evs.length = MAXIMUM_WAIT_OBJECTS / 2 →
      do_pth_wait host sigEv evs = do_pth_wait_main host sigEv evs ∧
      ((∀ e ∈ evs, e.u_type = EvKind.time →
          host.setTimerFails e.hd (msOf e) = false) →
        ∃ n, HostAction.wfmoCall n ∈ (do_pth_wait host sigEv evs).2.2)) := by
  constructor
  · intro hlen
    have hne : evs ≠ [] := by
      intro hh
      rw [hh] at hlen
      simp [MAXIMUM_WAIT_OBJECTS] at hlen
    unfold do_pth_wait
    rw [if_neg hne, if_pos hlen]
  · intro hne hlen
    have hnb : ¬evs.length > MAXIMUM_WAIT_OBJECTS / 2 := by omega
    have heq : do_pth_wait host sigEv evs = do_pth_wait_main host sigEv evs := by
      unfold do_pth_wait
      rw [if_neg hne, if_neg hnb]
    refine ⟨heq, ?_⟩
    intro hok
    rw [heq]
    simp only [do_pth_wait_main]
    have hok1 : ∀ e2 ∈ evs.map (fun e => { e with status := Status.pending }),
        e2.u_type = EvKind.time → host.setTimerFails e2.hd (msOf e2) = false := by
      intro e2 hm2 hk2
      obtain ⟨e0, hm0, rfl⟩ := List.mem_map.mp hm2
      exact hok e0 hm0 hk2
    obtain ⟨⟨slots, hslots⟩, -⟩ := contribute_time_complete host sigEv
      (evs.map fun e => { e with status := Status.pending }) 0 0 hok1
    rcases hcon : contribute host sigEv
      (evs.map fun e => { e with status := Status.pending }) 0 0 with ⟨res, acts, f⟩
    rw [hcon] at hslots
    simp only at hslots
    subst hslots
    rw [hcon]
    rcases hres : resolveAll host slots
      (evs.map fun e => { e with status := Status.pending }) 0
      (acts ++ [HostAction.wfmoCall (host.wfmo (slots.map Prod.snd))])
      with ⟨evs2, count, acts2⟩
    simp only [hres]
    refine ⟨host.wfmo (slots.map Prod.snd), ?_⟩
    show HostAction.wfmoCall (host.wfmo (slots.map Prod.snd)) ∈ acts2
    have hin : HostAction.wfmoCall (host.wfmo (slots.map Prod.snd)) ∈
        acts ++ [HostAction.wfmoCall (host.wfmo (slots.map Prod.snd))] :=
      List.mem_append.mpr (Or.inr (List.mem_singleton.mpr rfl))
    have := resolveAll_acts_mono host slots
      (evs.map fun e => { e with status := Status.pending }) 0
      (acts ++ [HostAction.wfmoCall (host.wfmo (slots.map Prod.snd))]) _ hin
    rw [hres] at this
    exact this

/-- C1: when an event ring passes validation, `do_pth_wait` returns the
number of events newly marked OCCURRED when that number is nonzero;
otherwise it returns 0 exactly when the blocking multi-object wait
reported WAIT_TIMEOUT, and −1 in every other case. -/
theorem do_pth_wait_return (host : Host) (sigEv : Nat) (evs : List WEvent)
    (h1 : evs ≠ []) (h2 : evs.length ≤ MAXIMUM_WAIT_OBJECTS / 2) :
    (occurredCount (do_pth_wait host sigEv evs).2.1 ≠ 0 →
      (do_pth_wait host sigEv evs).1 =
        (occurredCount (do_pth_wait host sigEv evs).2.1 : Int)) ∧
    (occurredCount (do_pth_wait host sigEv evs).2.1 = 0 →
      ((do_pth_wait host sigEv evs).1 = 0 ↔
        HostAction.wfmoCall WAIT_TIMEOUT ∈ (do_pth_wait host sigEv evs).2.2) ∧
      ((do_pth_wait host sigEv evs).1 = 0 ∨ (do_pth_wait host sigEv evs).1 = -1)) := by
  have hiso : do_pth_wait host sigEv evs = do_pth_wait_main host sigEv evs := by
    unfold do_pth_wait
    rw [if_neg h1, if_neg (by omega : ¬evs.length > MAXIMUM_WAIT_OBJECTS / 2)]
  rw [hiso]
  simp only [do_pth_wait_main]
  rcases hcon : contribute host sigEv
    (evs.map fun e => { e with status := Status.pending }) 0 0 with ⟨res, acts, f⟩
  rw [hcon]
  have hocc1 : occurredCount (evs.map fun e => { e with status := Status.pending }) = 0 :=
    occurredCount_reset evs
  have hnowf : ∀ m, HostAction.wfmoCall m ∉ acts := by
    intro m hm
    have hchar := contribute_acts_char host sigEv
      (evs.map fun e => { e with status := Status.pending }) 0 0 _
      (by rw [hcon]; exact hm)
    rcases hchar with ⟨e1, hm1, hk1, hf1⟩ | ⟨e1, hm1, k, m2, hf1⟩ <;> simp at hf1
  cases res with
  | none =>
    refine ⟨fun hocc => absurd hocc1 hocc, fun _ => ⟨⟨?_, ?_⟩, Or.inr rfl⟩⟩
    · intro h0
      have h0b : (-1 : Int) = 0 := h0
      norm_num at h0b
    · intro hmem
      exact absurd hmem (hnowf WAIT_TIMEOUT)
  | some slots =>
    rcases hres : resolveAll host slots
      (evs.map fun e => { e with status := Status.pending }) 0
      (acts ++ [HostAction.wfmoCall (host.wfmo (slots.map Prod.snd))])
      with ⟨evs2, count, acts2⟩
    simp only [hres]
    obtain ⟨hnd, -⟩ := contribute_slots host sigEv
      (evs.map fun e => { e with status := Status.pending }) 0 0 slots
      (by rw [hcon])
    have hallpend : ∀ p ∈ slots, ∀ e : WEvent,
        (evs.map fun e => { e with status := Status.pending })[p.1]? = some e →
        e.status = Status.pending := by
      intro p _ e hp
      have hm : e ∈ evs.map fun e => { e with status := Status.pending } :=
        List.getElem?_mem hp
      obtain ⟨e0, -, rfl⟩ := List.mem_map.mp hm
      rfl
    have hcnt := resolveAll_count host slots
      (evs.map fun e => { e with status := Status.pending }) 0
      (acts ++ [HostAction.wfmoCall (host.wfmo (slots.map Prod.snd))]) hnd hallpend
    rw [hres] at hcnt
    simp only at hcnt
    rw [hocc1] at hcnt
    have hcount2 : count = occurredCount evs2 := by omega
    have hwfin : HostAction.wfmoCall (host.wfmo (slots.map Prod.snd)) ∈ acts2 := by
      have := resolveAll_acts_mono host slots
        (evs.map fun e => { e with status := Status.pending }) 0
        (acts ++ [HostAction.wfmoCall (host.wfmo (slots.map Prod.snd))]) _
        (List.mem_append.mpr (Or.inr (List.mem_singleton.mpr rfl)))
      rw [hres] at this
      exact this
    have hwfuniq : ∀ m, HostAction.wfmoCall m ∈ acts2 →
        m = host.wfmo (slots.map Prod.snd) := by
      intro m hm
      have hchar := resolveAll_acts_char host slots
        (evs.map fun e => { e with status := Status.pending }) 0 _ _
        (by rw [hres]; exact hm)
      rcases hchar with hin | h1
      · rcases List.mem_append.mp hin with h2 | h2
        · exact absurd h2 (hnowf m)
        · simpa using h2
      · rcases h1 with ⟨k, hk⟩ | ⟨fd, hk⟩ | ⟨fd, hk⟩ | ⟨k, hk⟩ <;> simp at hk
    constructor
    · intro hocc
      rw [← hcount2] at hocc ⊢
      rw [if_pos hocc]
    · intro hocc
      rw [← hcount2] at hocc
      rw [if_neg (by omega : ¬count ≠ 0)]
      constructor
      · constructor
        · intro h0
          by_cases hn : host.wfmo (slots.map Prod.snd) = WAIT_TIMEOUT
          · rw [← hn]
            exact hwfin
          · rw [if_neg hn] at h0
            norm_num at h0
        · intro hmem
          have := hwfuniq WAIT_TIMEOUT hmem
          rw [if_pos this.symm]
      · by_cases hn : host.wfmo (slots.map Prod.snd) = WAIT_TIMEOUT
        · exact Or.inl (by rw [if_pos hn])
        · exact Or.inr (by rw [if_neg hn])

theorem do_pth_wait_return_witness :
    (occurredCount (do_pth_wait witHost 50 [witEvH]).2.1 ≠ 0 →
      (do_pth_wait witHost 50 [witEvH]).1 =
        (occurredCount (do_pth_wait witHost 50 [witEvH]).2.1 : Int)) ∧
    (occurredCount (do_pth_wait witHost 50 [witEvH]).2.1 = 0 →
      ((do_pth_wait witHost 50 [witEvH]).1 = 0 ↔
        HostAction.wfmoCall WAIT_TIMEOUT ∈ (do_pth_wait witHost 50 [witEvH]).2.2) ∧
      ((do_pth_wait witHost 50 [witEvH]).1 = 0 ∨
        (do_pth_wait witHost 50 [witEvH]).1 = -1)) :=
  do_pth_wait_return witHost 50 [witEvH] (by decide) (by decide)

theorem do_pth_wait_capacity_witness :
    do_pth_wait witHost 50 (List.replicate 33 witEvH) =
      (-1, List.replicate 33 witEvH, []) ∧
    (do_pth_wait witHost 50 (List.replicate 32 witEvH) =
        do_pth_wait_main witHost 50 (List.replicate 32 witEvH) ∧
      ((∀ e ∈ List.replicate 32 witEvH, e.u_type = EvKind.time →
          witHost.setTimerFails e.hd (msOf e) = false) →
        ∃ n, HostAction.wfmoCall n ∈
          (do_pth_wait witHost 50 (List.replicate 32 witEvH)).2.2)) :=
  ⟨(do_pth_wait_capacity witHost 50 (List.replicate 33 witEvH)).1 (by decide),
   (do_pth_wait_capacity witHost 50 (List.replicate 32 witEvH)).2
     (by decide) (by decide)⟩

theorem do_pth_wait_timer_ms_witness :
    HostAction.setTimer 33 (1 * 1000 + (1500 + 500) / 1000) ∈
      (do_pth_wait witHost 50 [witEvT]).2.2 ∧
    (∃ e ∈ [witEvT], e.u_type = EvKind.time ∧ e.hd = 33 ∧
      1 * 1000 + (1500 + 500) / 1000 =
        e.tv_sec * 1000 + (e.tv_usec + 500) / 1000) := by
  have hmem : HostAction.setTimer 33 (1 * 1000 + (1500 + 500) / 1000) ∈
      (do_pth_wait witHost 50 [witEvT]).2.2 :=
    (do_pth_wait_timer_ms witHost 50 [witEvT]).2 (by decide) (by decide)
      (by decide) witEvT (by decide) rfl
  exact ⟨hmem, (do_pth_wait_timer_ms witHost 50 [witEvT]).1 33
    (1 * 1000 + (1500 + 500) / 1000) hmem⟩

/-- Explicit form of one SELECT resolution iteration on a state with all
three sets present, when the enumeration succeeds. -/
theorem selStep_explicit (host : Host) (it : FdItem) (rs ws es : List Int)
    (n : Nat) (acts : List HostAction)
    (henum : host.enumFails it.fd = false) :
    selStep host ⟨some rs, some ws, some es, n, acts⟩ it =
      ⟨some (if readReady host it.fd then fdSetAdd rs it.fd else rs),
       some (if writeReady host it.fd then fdSetAdd ws it.fd else ws),
       some (if exceptReady host it.fd then fdSetAdd es it.fd else es),
       n + (if readReady host it.fd then 1 else 0) +
         (if writeReady host it.fd then 1 else 0) +
         (if exceptReady host it.fd then 1 else 0),
       acts ++ [HostAction.wsaEventSelectClear it.fd,
         HostAction.ioctlBlocking it.fd]⟩ := by
  unfold selStep selUpdR selUpdW selUpdE
  rw [if_neg (by simp [henum])]
  by_cases hr : host.netEvents it.fd &&& (FD_READ ||| FD_ACCEPT) = 0 <;>
    by_cases hw : host.netEvents it.fd &&& FD_WRITE = 0 <;>
      by_cases hx : host.netEvents it.fd &&& (FD_OOB ||| FD_CLOSE) = 0 <;>
        simp [hr, hw, hx, readReady, writeReady, exceptReady]

/-- `FD_SET` really appends when the descriptor is new and the set is not
full. -/
theorem fdSetAdd_append (s : List Int) (fd : Int)
    (hnotin : fd ∉ s) (hlen : s.length < FD_SETSIZE) :
    fdSetAdd s fd = s ++ [fd] := by
  unfold fdSetAdd
  rw [if_neg hnotin, if_pos hlen]

/-- The SELECT resolution loop rewrites each present fd-set to the
already-collected part plus the now-ready probed descriptors of the
matching direction, and adds one to the output count per readiness
membership — provided the final sets stay within FD_SETSIZE and free of
duplicates (no FD_SET truncation). -/
theorem selLoop_sets (host : Host) :
    ∀ (ar : List FdItem) (rs ws es : List Int) (n : Nat) (acts : List HostAction),
      (∀ it ∈ ar, host.enumFails it.fd = false) →
      (rs ++ (ar.map FdItem.fd).filter (fun fd => readReady host fd)).Nodup →
      rs.length + ((ar.map FdItem.fd).filter (fun fd => readReady host fd)).length ≤
        FD_SETSIZE →
      (ws ++ (ar.map FdItem.fd).filter (fun fd => writeReady host fd)).Nodup →
      ws.length + ((ar.map FdItem.fd).filter (fun fd => writeReady host fd)).length ≤
        FD_SETSIZE →
      (es ++ (ar.map FdItem.fd).filter (fun fd => exceptReady host fd)).Nodup →
      es.length + ((ar.map FdItem.fd).filter (fun fd => exceptReady host fd)).length ≤
        FD_SETSIZE →
      ar.foldl (selStep host) ⟨some rs, some ws, some es, n, acts⟩ =
        ⟨some (rs ++ (ar.map FdItem.fd).filter (fun fd => readReady host fd)),
         some (ws ++ (ar.map FdItem.fd).filter (fun fd => writeReady host fd)),
         some (es ++ (ar.map FdItem.fd).filter (fun fd => exceptReady host fd)),
         n + ((ar.map FdItem.fd).filter (fun fd => readReady host fd)).length +
           ((ar.map FdItem.fd).filter (fun fd => writeReady host fd)).length +
           ((ar.map FdItem.fd).filter (fun fd => exceptReady host fd)).length,
         acts ++ ar.flatMap (fun it =>
           [HostAction.wsaEventSelectClear it.fd,
             HostAction.ioctlBlocking it.fd])⟩ := by
  intro ar
  induction ar with
  | nil =>
    intro rs ws es n acts _ _ _ _ _ _ _
    simp
  | cons it rest ih =>
    intro rs ws es n acts henum hndr hlr hndw hlw hnde hle
    have henit : host.enumFails it.fd = false := henum it (List.mem_cons_self _ _)
    have henum2 : ∀ it2 ∈ rest, host.enumFails it2.fd = false :=
      fun it2 hm => henum it2 (List.mem_cons_of_mem _ hm)
    rw [List.foldl_cons, selStep_explicit host it rs ws es n acts henit]
    have hfR : ((it :: rest).map FdItem.fd).filter (fun fd => readReady host fd) =
        (if readReady host it.fd then [it.fd] else []) ++
          (rest.map FdItem.fd).filter (fun fd => readReady host fd) := by
      by_cases hr : readReady host it.fd <;> simp [hr]
    have hfW : ((it :: rest).map FdItem.fd).filter (fun fd => writeReady host fd) =
        (if writeReady host it.fd then [it.fd] else []) ++
          (rest.map FdItem.fd).filter (fun fd => writeReady host fd) := by
      by_cases hw : writeReady host it.fd <;> simp [hw]
    have hfE : ((it :: rest).map FdItem.fd).filter (fun fd => exceptReady host fd) =
        (if exceptReady host it.fd then [it.fd] else []) ++
          (rest.map FdItem.fd).filter (fun fd => exceptReady host fd) := by
      by_cases hx : exceptReady host it.fd <;> simp [hx]
    rw [hfR] at hndr hlr
    rw [hfW] at hndw hlw
    rw [hfE] at hnde hle
    have hsetR : (if readReady host it.fd then fdSetAdd rs it.fd else rs) =
        rs ++ (if readReady host it.fd then [it.fd] else []) := by
      by_cases hr : readReady host it.fd
      · rw [if_pos hr, if_pos hr]
        apply fdSetAdd_append
        · rw [if_pos hr] at hndr
          intro hmem
          have := (List.nodup_append.mp hndr).2.2
          exact this hmem (by simp)
        · rw [if_pos hr] at hlr
          simp at hlr
          omega
      · rw [if_neg hr, if_neg hr]
        simp
    have hsetW : (if writeReady host it.fd then fdSetAdd ws it.fd else ws) =
        ws ++ (if writeReady host it.fd then [it.fd] else []) := by
      by_cases hw : writeReady host it.fd
      · rw [if_pos hw, if_pos hw]
        apply fdSetAdd_append
        · rw [if_pos hw] at hndw
          intro hmem
          have := (List.nodup_append.mp hndw).2.2
          exact this hmem (by simp)
        · rw [if_pos hw] at hlw
          simp at hlw
          omega
      · rw [if_neg hw, if_neg hw]
        simp
    have hsetE : (if exceptReady host it.fd then fdSetAdd es it.fd else es) =
        es ++ (if exceptReady host it.fd then [it.fd] else []) := by
      by_cases hx : exceptReady host it.fd
      · rw [if_pos hx, if_pos hx]
        apply fdSetAdd_append
        · rw [if_pos hx] at hnde
          intro hmem
          have := (List.nodup_append.mp hnde).2.2
          exact this hmem (by simp)
        · rw [if_pos hx] at hle
          simp at hle
          omega
      · rw [if_neg hx, if_neg hx]
        simp
    rw [hsetR, hsetW, hsetE]
    rw [ih (rs ++ (if readReady host it.fd then [it.fd] else []))
        (ws ++ (if writeReady host it.fd then [it.fd] else []))
        (es ++ (if exceptReady host it.fd then [it.fd] else []))
        _ _ henum2
        (by rw [List.append_assoc]; exact hndr)
        (by simp only [List.length_append] at hlr ⊢; omega)
        (by rw [List.append_assoc]; exact hndw)
        (by simp only [List.length_append] at hlw ⊢; omega)
        (by rw [List.append_assoc]; exact hnde)
        (by simp only [List.length_append] at hle ⊢; omega)]
    rw [hfR, hfW, hfE]
    have hlifR : (if readReady host it.fd then [it.fd] else []).length =
        if readReady host it.fd then 1 else 0 := by split <;> rfl
    have hlifW : (if writeReady host it.fd then [it.fd] else []).length =
        if writeReady host it.fd then 1 else 0 := by split <;> rfl
    have hlifE : (if exceptReady host it.fd then [it.fd] else []).length =
        if exceptReady host it.fd then 1 else 0 := by split <;> rfl
    simp only [SelSt.mk.injEq]
    refine ⟨?_, ?_, ?_, ?_, ?_⟩
    · rw [List.append_assoc]
    · rw [List.append_assoc]
    · rw [List.append_assoc]
    · simp only [List.length_append, hlifR, hlifW, hlifE]
      omega
    · rw [List.flatMap_cons, List.append_assoc]

theorem build_fdarray_some (ar : List FdItem) (l : List Int) (m : Nat) :
    build_fdarray ar (some l) m = l.foldl (fun a fd => fdarrayAdd a fd m) ar := rfl

theorem build_fdarray_none (ar : List FdItem) (m : Nat) :
    build_fdarray ar none m = ar := rfl

/-- The descriptors of the fdarray after one `build_fdarray` inner
iteration: unchanged when present, appended when absent and there is
room. -/
theorem fdarrayAdd_map_fd (ar : List FdItem) (fd : Int) (m : Nat) :
    (fdarrayAdd ar fd m).map FdItem.fd =
      if fd ∈ ar.map FdItem.fd then ar.map FdItem.fd
      else if ar.length < FD_SETSIZE then ar.map FdItem.fd ++ [fd]
      else ar.map FdItem.fd := by
  unfold fdarrayAdd
  by_cases hany : ar.any (fun it => decide (it.fd = fd)) = true
  · have hmem : fd ∈ ar.map FdItem.fd := by
      rw [List.any_eq_true] at hany
      obtain ⟨it, hit, heq⟩ := hany
      simp only [decide_eq_true_eq] at heq
      exact List.mem_map.mpr ⟨it, hit, heq⟩
    rw [if_pos hany, if_pos hmem, List.map_map]
    apply List.map_eq_map_iff.mpr
    intro it _
    simp only [Function.comp_apply]
    split <;> rfl
  · have hmem : fd ∉ ar.map FdItem.fd := by
      intro hm
      obtain ⟨it, hit, heq⟩ := List.mem_map.mp hm
      exact hany (List.any_eq_true.mpr ⟨it, hit, by simp [heq]⟩)
    rw [if_neg hany, if_neg hmem]
    by_cases hlen : ar.length < FD_SETSIZE
    · rw [if_pos hlen, if_pos hlen]
      simp
    · rw [if_neg hlen, if_neg hlen]

theorem fdarrayAdd_length (ar : List FdItem) (fd : Int) (m : Nat) :
    (fdarrayAdd ar fd m).length =
      if fd ∈ ar.map FdItem.fd then ar.length
      else if ar.length < FD_SETSIZE then ar.length + 1
      else ar.length := by
  have h := congrArg List.length (fdarrayAdd_map_fd ar fd m)
  rw [List.length_map] at h
  rw [h]
  split_ifs <;> simp

/-- The `build_fdarray` fold keeps the descriptor list duplicate-free. -/
theorem fdarray_foldl_nodup (m : Nat) :
    ∀ (fds : List Int) (ar : List FdItem),
      (ar.map FdItem.fd).Nodup →
      ((fds.foldl (fun a fd => fdarrayAdd a fd m) ar).map FdItem.fd).Nodup := by
  intro fds
  induction fds with
  | nil => exact fun ar h => h
  | cons x rest ih =>
    intro ar h
    rw [List.foldl_cons]
    apply ih
    rw [fdarrayAdd_map_fd]
    by_cases hmem : x ∈ ar.map FdItem.fd
    · rw [if_pos hmem]; exact h
    · rw [if_neg hmem]
      by_cases hlen : ar.length < FD_SETSIZE
      · rw [if_pos hlen, List.nodup_append]
        refine ⟨h, List.nodup_singleton x, ?_⟩
        intro y hy hy2
        simp only [List.mem_singleton] at hy2
        subst hy2
        exact hmem hy
      · rw [if_neg hlen]; exact h

/-- Without truncation (total input within FD_SETSIZE), the
`build_fdarray` fold collects exactly the input descriptors. -/
theorem fdarray_foldl_small (m : Nat) :
    ∀ (fds : List Int) (ar : List FdItem),
      ar.length + fds.length ≤ FD_SETSIZE →
      (fds.foldl (fun a fd => fdarrayAdd a fd m) ar).length ≤
        ar.length + fds.length ∧
      (∀ fd, fd ∈ (fds.foldl (fun a fd => fdarrayAdd a fd m) ar).map FdItem.fd ↔
        (fd ∈ ar.map FdItem.fd ∨ fd ∈ fds)) := by
  intro fds
  induction fds with
  | nil =>
    intro ar h
    refine ⟨by simp, ?_⟩
    intro fd
    simp
  | cons x rest ih =>
    intro ar h
    rw [List.length_cons] at h
    rw [List.foldl_cons]
    by_cases hmem : x ∈ ar.map FdItem.fd
    · have hfds : (fdarrayAdd ar x m).map FdItem.fd = ar.map FdItem.fd := by
        rw [fdarrayAdd_map_fd, if_pos hmem]
      have hlen : (fdarrayAdd ar x m).length = ar.length := by
        rw [fdarrayAdd_length, if_pos hmem]
      obtain ⟨ihl, ihm⟩ := ih (fdarrayAdd ar x m) (by omega)
      constructor
      · simp only [List.length_cons]
        omega
      · intro fd
        rw [ihm fd, hfds]
        simp only [List.mem_cons]
        constructor
        · rintro (h1 | h1)
          · exact Or.inl h1
          · exact Or.inr (Or.inr h1)
        · rintro (h1 | h1 | h1)
          · exact Or.inl h1
          · subst h1; exact Or.inl hmem
          · exact Or.inr h1
    · have hroom : ar.length < FD_SETSIZE := by omega
      have hfds : (fdarrayAdd ar x m).map FdItem.fd = ar.map FdItem.fd ++ [x] := by
        rw [fdarrayAdd_map_fd, if_neg hmem, if_pos hroom]
      have hlen : (fdarrayAdd ar x m).length = ar.length + 1 := by
        rw [fdarrayAdd_length, if_neg hmem, if_pos hroom]
      obtain ⟨ihl, ihm⟩ := ih (fdarrayAdd ar x m) (by omega)
      constructor
      · simp only [List.length_cons]
        omega
      · intro fd
        rw [ihm fd, hfds]
        simp only [List.mem_append, List.mem_singleton, List.mem_cons]
        tauto

theorem selStep_acts_ok (host : Host) (st : SelSt) (it : FdItem)
    (henum : host.enumFails it.fd = false) :
    (selStep host st it).acts = st.acts ++
      [HostAction.wsaEventSelectClear it.fd, HostAction.ioctlBlocking it.fd] := by
  unfold selStep
  rw [if_neg (by simp [henum])]
  simp [selUpdE_acts, selUpdW_acts, selUpdR_acts]

theorem selLoop_acts_mono (host : Host) :
    ∀ (ar : List FdItem) (st : SelSt) (a : HostAction),
      a ∈ st.acts → a ∈ (ar.foldl (selStep host) st).acts := by
  intro ar
  induction ar with
  | nil => exact fun st a ha => ha
  | cons it rest ih =>
    intro st a ha
    rw [List.foldl_cons]
    apply ih
    rcases selStep_acts host st it with he | he <;> rw [he]
    · exact ha
    · exact List.mem_append.mpr (Or.inl ha)

/-- Every successfully probed descriptor gets both restoration actions
(registration cleared, blocking mode restored) in the loop's trace. -/
theorem selLoop_acts_mem (host : Host) :
    ∀ (ar : List FdItem) (st : SelSt),
      (∀ it ∈ ar, host.enumFails it.fd = false) →
      ∀ it ∈ ar,
        HostAction.wsaEventSelectClear it.fd ∈ (ar.foldl (selStep host) st).acts ∧
        HostAction.ioctlBlocking it.fd ∈ (ar.foldl (selStep host) st).acts := by
  intro ar
  induction ar with
  | nil => intro st _ it hit; simp at hit
  | cons it0 rest ih =>
    intro st henum it hit
    rw [List.foldl_cons]
    rcases List.mem_cons.mp hit with h1 | h1
    · subst h1
      have hacts := selStep_acts_ok host st it
        (henum it (List.mem_cons_self _ _))
      constructor <;>
        [exact selLoop_acts_mono host rest _ _
          (by rw [hacts]; exact List.mem_append.mpr (Or.inr (by simp)));
         exact selLoop_acts_mono host rest _ _
          (by rw [hacts]; exact List.mem_append.mpr (Or.inr (by simp)))]
    · exact ih (selStep host st it0)
        (fun it2 hm => henum it2 (List.mem_cons_of_mem _ hm)) it h1

/-- Full description of the SELECT resolution on an event with all three
fd-sets present, when every enumeration succeeds and the referenced
descriptors fit in FD_SETSIZE: the sets are rewritten to the ready
probed descriptors per direction, the output slot receives the total
membership count, and each probed descriptor gets its restoration
actions. -/
theorem selResolve_spec (host : Host) (e : WEvent) (rs ws es : List Int)
    (henum : ∀ fd, host.enumFails fd = false)
    (hr : e.rfds = some rs) (hw : e.wfds = some ws) (hx : e.efds = some es)
    (hsmall : rs.length + ws.length + es.length ≤ FD_SETSIZE) :
    selResolve host e =
      ({ e with
          rfds := some (((probedArray e).map FdItem.fd).filter
            (fun fd => readReady host fd)),
          wfds := some (((probedArray e).map FdItem.fd).filter
            (fun fd => writeReady host fd)),
          efds := some (((probedArray e).map FdItem.fd).filter
            (fun fd => exceptReady host fd)),
          sel_rc := ((((probedArray e).map FdItem.fd).filter
              (fun fd => readReady host fd)).length +
            (((probedArray e).map FdItem.fd).filter
              (fun fd => writeReady host fd)).length +
            (((probedArray e).map FdItem.fd).filter
              (fun fd => exceptReady host fd)).length : Nat) },
       (probedArray e).flatMap (fun it =>
         [HostAction.wsaEventSelectClear it.fd,
           HostAction.ioctlBlocking it.fd])) ∧
    ((probedArray e).map FdItem.fd).Nodup ∧
    (∀ fd, fd ∈ (probedArray e).map FdItem.fd ↔
      (fd ∈ rs ∨ fd ∈ ws ∨ fd ∈ es)) := by
  have hpa : probedArray e =
      es.foldl (fun a fd => fdarrayAdd a fd 0)
        (ws.foldl (fun a fd => fdarrayAdd a fd 0)
          (rs.foldl (fun a fd => fdarrayAdd a fd 0) [])) := by
    unfold probedArray
    rw [hr, hw, hx, build_fdarray_some, build_fdarray_some, build_fdarray_some]
  obtain ⟨hl1, hm1⟩ := fdarray_foldl_small 0 rs [] (by simp; omega)
  simp only [List.length_nil, Nat.zero_add] at hl1
  obtain ⟨hl2, hm2⟩ := fdarray_foldl_small 0 ws
    (rs.foldl (fun a fd => fdarrayAdd a fd 0) []) (by omega)
  obtain ⟨hl3, hm3⟩ := fdarray_foldl_small 0 es
    (ws.foldl (fun a fd => fdarrayAdd a fd 0)
      (rs.foldl (fun a fd => fdarrayAdd a fd 0) [])) (by omega)
  have hlen_arr : (probedArray e).length ≤ FD_SETSIZE := by
    rw [hpa]; omega
  have hnd : ((probedArray e).map FdItem.fd).Nodup := by
    rw [hpa]
    apply fdarray_foldl_nodup
    apply fdarray_foldl_nodup
    apply fdarray_foldl_nodup
    simp
  have hmem : ∀ fd, fd ∈ (probedArray e).map FdItem.fd ↔
      (fd ∈ rs ∨ fd ∈ ws ∨ fd ∈ es) := by
    intro fd
    rw [hpa, hm3 fd, hm2 fd, hm1 fd]
    simp only [List.map_nil, List.not_mem_nil, false_or]
    tauto
  refine ⟨?_, hnd, hmem⟩
  have hflen : ∀ (p : Int → Bool),
      (((probedArray e).map FdItem.fd).filter p).length ≤ FD_SETSIZE := by
    intro p
    calc (((probedArray e).map FdItem.fd).filter p).length
        ≤ ((probedArray e).map FdItem.fd).length := List.length_filter_le _ _
      _ = (probedArray e).length := List.length_map _ _
      _ ≤ FD_SETSIZE := hlen_arr
  unfold selResolve
  rw [hr, hw, hx]
  simp only [Option.map_some']
  rw [selLoop_sets host (probedArray e) [] [] [] 0 []
    (fun it _ => henum it.fd)
    (by simpa using (hnd.filter _))
    (by simpa using hflen (fun fd => readReady host fd))
    (by simpa using (hnd.filter _))
    (by simpa using hflen (fun fd => writeReady host fd))
    (by simpa using (hnd.filter _))
    (by simpa using hflen (fun fd => exceptReady host fd))]
  simp

/-- C2: when a SELECT event (with its three fd-sets present, referencing
at most FD_SETSIZE descriptors, all enumerations succeeding) fires in
the wait's resolution phase, its three fd-sets are rewritten to exactly
the probed descriptors now ready for the corresponding direction, the
total count of ready set-memberships is written to the event's output
slot, and every probed descriptor gets its event registration cleared
and its blocking mode restored; the probed descriptors are exactly those
referenced by the three sets. -/
theorem resolveOne_select (host : Host) (e : WEvent) (hd : Nat)
    (rs ws es : List Int)
    (hk : e.u_type = EvKind.select)
    (hsig : host.signaled hd = true)
    (henum : ∀ fd, host.enumFails fd = false)
    (hr : e.rfds = some rs) (hw : e.wfds = some ws) (hx : e.efds = some es)
    (hsmall : rs.length + ws.length + es.length ≤ FD_SETSIZE) :
    (∀ fd, fd ∈ (probedArray e).map FdItem.fd ↔
      (fd ∈ rs ∨ fd ∈ ws ∨ fd ∈ es)) ∧
    (resolveOne host e hd).1.rfds =
      some (((probedArray e).map FdItem.fd).filter (fun fd => readReady host fd)) ∧
    (resolveOne host e hd).1.wfds =
      some (((probedArray e).map FdItem.fd).filter (fun fd => writeReady host fd)) ∧
    (resolveOne host e hd).1.efds =
      some (((probedArray e).map FdItem.fd).filter (fun fd => exceptReady host fd)) ∧
    (resolveOne host e hd).1.sel_rc =
      ((((probedArray e).map FdItem.fd).filter (fun fd => readReady host fd)).length +
        (((probedArray e).map FdItem.fd).filter (fun fd => writeReady host fd)).length +
        (((probedArray e).map FdItem.fd).filter (fun fd => exceptReady host fd)).length
        : Nat) ∧
    (resolveOne host e hd).1.status = Status.occurred ∧
    (∀ it ∈ probedArray e,
      HostAction.wsaEventSelectClear it.fd ∈ (resolveOne host e hd).2.2 ∧
      HostAction.ioctlBlocking it.fd ∈ (resolveOne host e hd).2.2) := by
  have hr1 : ({ e with status := Status.occurred } : WEvent).rfds = some rs := hr
  have hw1 : ({ e with status := Status.occurred } : WEvent).wfds = some ws := hw
  have hx1 : ({ e with status := Status.occurred } : WEvent).efds = some es := hx
  obtain ⟨hsel, hnd, hmem⟩ := selResolve_spec host
    { e with status := Status.occurred } rs ws es henum hr1 hw1 hx1 hsmall
  have hpa1 : probedArray { e with status := Status.occurred } = probedArray e := rfl
  rw [hpa1] at hsel hnd hmem
  have hres : resolveOne host e hd =
      ((selResolve host { e with status := Status.occurred }).1, 1,
        (selResolve host { e with status := Status.occurred }).2 ++
          [HostAction.resetEvent hd] ++ []) := by
    unfold resolveOne
    rw [hsig, hk]
    rcases hselpair : selResolve host { e with status := Status.occurred }
      with ⟨e2, acts1⟩
    simp [hselpair]
  rw [hres, hsel]
  refine ⟨hmem, rfl, rfl, rfl, rfl, rfl, ?_⟩
  intro it hit
  constructor <;>
    · simp only [List.append_nil]
      apply List.mem_append.mpr
      left
      apply List.mem_flatMap.mpr
      exact ⟨it, hit, by simp⟩

theorem resolveOne_select_witness :
    (resolveOne wit2Host wit2Ev 21).1.rfds = some [1] ∧
    (resolveOne wit2Host wit2Ev 21).1.wfds = some [3] ∧
    (resolveOne wit2Host wit2Ev 21).1.efds = some [] ∧
    (resolveOne wit2Host wit2Ev 21).1.sel_rc = 2 ∧
    (∀ fd, fd ∈ (probedArray wit2Ev).map FdItem.fd ↔
      (fd ∈ [(1 : Int), 2] ∨ fd ∈ [(3 : Int)] ∨ fd ∈ ([] : List Int))) := by
  obtain ⟨hmem, hrf, hwf, hxf, hrc, -, -⟩ := resolveOne_select wit2Host wit2Ev 21
    [1, 2] [3] [] rfl rfl (fun _ => rfl) (by decide) (by decide) (by decide)
    (by decide)
  refine ⟨?_, ?_, ?_, ?_, hmem⟩
  · rw [hrf]; decide
  · rw [hwf]; decide
  · rw [hxf]; decide
  · rw [hrc]; decide

end W32Pth
